import Mathlib

/-!
Verification of the Synagamy JSON-cleaning scripts.

This file embeds the two Python scripts `clean_json.py` and
`clean_json_advanced.py` in Lean 4.  Both scripts implement
`clean_json_file`, a two-stage transform over raw text:

* Stage 1 is a hand-rolled line filter (`remove_expert_summary_fields` in
  `clean_json.py`, `remove_expert_summary_regex` in `clean_json_advanced.py`)
  that drops whole lines belonging to an `"expert_summary"` field.
* Stage 2 calls `json.loads` on the Stage-1 text; on success it deletes any
  remaining `expert_summary` keys from the top-level records, re-serializes
  with `json.dumps(data, indent=2, ensure_ascii=False)` and reports success;
  on a parse error it reports failure and keeps the Stage-1 text.

Texts are modelled as `List Char`.  The Python `json` library is modelled
faithfully on a fragment: numbers are restricted to integer lexemes (a
numeral with a fraction or exponent part, `NaN` or `Infinity`, which Python
would read as a float, makes the modelled `jsonLoads` fail instead), and
string escapes that denote lone UTF-16 surrogates are rejected (Lean `Char`
cannot hold them).  None of the claims below depend on floats or lone
surrogates.  Everything else — whitespace, strictness about control
characters, escape handling, duplicate-key insertion order, the exact
`indent=2` output layout of `json.dumps` — follows CPython's `json` module.

An uncaught Python exception (for example the `TypeError` raised by
`'expert_summary' in item` when an item is a number) is modelled as the
result `none`.
-/

/-! ### Character-list utilities -/

/-- Decimal digit test, as Python's lexer uses on number characters. -/
def isDigitChar (c : Char) : Bool := 48 ≤ c.toNat && c.toNat ≤ 57

/-- Whitespace accepted by Python's `json` between tokens: space, tab,
newline, carriage return. -/
def isWsChar (c : Char) : Bool := c == ' ' || c == '\t' || c == '\n' || c == '\r'

/-- Drop leading `json` whitespace. -/
def skipWs : List Char → List Char
  | [] => []
  | c :: cs => if isWsChar c then skipWs cs else c :: cs

/-- Python `str.split('\n')`: split at every newline, keeping empty pieces;
the empty text yields one empty line. -/
def splitLines : List Char → List (List Char)
  | [] => [[]]
  | c :: cs =>
    if c = '\n' then [] :: splitLines cs
    else
      match splitLines cs with
      | [] => [[c]]
      | l :: ls => (c :: l) :: ls

/-- Python `'\n'.join(lines)`. -/
def joinLines : List (List Char) → List Char
  | [] => []
  | [l] => l
  | l :: ls => l ++ '\n' :: joinLines ls

/-- Python's substring containment `pat in s` on character lists. -/
def hasSubstr (pat : List Char) : List Char → Bool
  | [] => pat.isEmpty
  | c :: cs => pat.isPrefixOf (c :: cs) || hasSubstr pat cs

/-- Python `s.find(pat)` restricted to found results: the first index where
`pat` occurs as a contiguous substring. -/
def idxOfSubstr (pat : List Char) : List Char → Option Nat
  | [] => if pat.isEmpty then some 0 else none
  | c :: cs =>
    if pat.isPrefixOf (c :: cs) then some 0
    else (idxOfSubstr pat cs).map (· + 1)

/-- Python `s.find(ch, start)` restricted to found results: the first index
`≥ start` whose character satisfies `p`. -/
def findIdxFrom (p : Char → Bool) (l : List Char) (start : Nat) : Option Nat :=
  ((l.drop start).findIdx? p).map (· + start)

/-! ### Stage 1 of `clean_json.py`: `remove_expert_summary_fields` -/

/-- The quoted key token `"expert_summary"` that both scripts search lines
for (`'"expert_summary"' in line`). -/
def tokenQ : List Char := ("\"expert_summary\"").toList

/-- The bare key `expert_summary` used by Stage 2 (`'expert_summary' in item`,
`del item['expert_summary']`). -/
def keyChars : List Char := ("expert_summary").toList

/-- The line test that starts a field span in both scripts:
`'"expert_summary"' in line and ':' in line`.  Note the colon may be
anywhere in the line. -/
def triggerLine (line : List Char) : Bool := hasSubstr tokenQ line && line.contains ':'

/-- Lines 72–83 of `clean_json.py`: count unescaped quotes, where a
backslash (when not itself escaped) makes the next character count as
neither quote nor escape.  The `Bool` argument is the running `escaped`
flag. -/
def quoteCount : Bool → List Char → Nat
  | _, [] => 0
  | true, _ :: cs => quoteCount false cs
  | false, c :: cs =>
    if c = '\\' then quoteCount true cs
    else if c = '"' then quoteCount false cs + 1
    else quoteCount false cs

/-- Lines 56–67 of `clean_json.py`: on the first line after the trigger
line, scanning starts after the first `"` that follows the first `:` of the
line (`line[quote_pos + 1:]`); if either is absent the whole line is
scanned. -/
def exLinePart (line : List Char) : List Char :=
  match line.findIdx? (· = ':') with
  | none => line
  | some colonPos =>
    match findIdxFrom (· = '"') line colonPos with
    | none => line
    | some quotePos => line.drop (quotePos + 1)

/-- The per-line loop of `remove_expert_summary_fields` (lines 44–99 of
`clean_json.py`).  State: `in_expert_summary` and `expert_summary_start`.
The trigger test runs first on every line, even inside a span.  Inside a
span every line is dropped; the span ends when the scanned part of a line
holds an odd number of unescaped quotes (the source's subsequent
trailing-comma inspection, lines 88–94, computes values it never uses). -/
def basicLoop : Bool → Bool → List (List Char) → List (List Char)
  | _, _, [] => []
  | inExp, exStart, line :: rest =>
    if triggerLine line then basicLoop true true rest
    else if inExp then
      let part := if exStart then exLinePart line else line
      if quoteCount false part % 2 = 1 then basicLoop false false rest
      else basicLoop true false rest
    else line :: basicLoop inExp exStart rest

/-- Stage 1 of `clean_json.py`: split on newlines, filter lines, re-join. -/
def remove_expert_summary_fields (text : List Char) : List Char :=
  joinLines (basicLoop false false (splitLines text))

/-! ### Stage 1 of `clean_json_advanced.py`: `remove_expert_summary_regex`
(despite the name, the regex in the source is built but never applied; the
function is the line filter below) -/

/-- First-unescaped-quote search (lines 52–64 and 87–103 of
`clean_json_advanced.py`); the `Bool` argument is the `escaped` flag. -/
def hasUnescQuote : Bool → List Char → Bool
  | _, [] => false
  | true, _ :: cs => hasUnescQuote false cs
  | false, c :: cs =>
    if c = '\\' then hasUnescQuote true cs
    else if c = '"' then true
    else hasUnescQuote false cs

/-- Lines 42–79 of `clean_json_advanced.py`: the `in_expert_summary` state
after processing a trigger line.  The scan looks for the value's opening
quote after the colon that follows the key token and then for a first
unescaped quote in the remainder; finding one ends the span on this line
(the inner `remaining.startswith(',')` assignment is subsumed by the
unconditional `elif quotes_found == 1` that follows the scan). -/
def advStartState (line : List Char) : Bool :=
  match idxOfSubstr tokenQ line with
  | none => true
  | some tokenPos =>
    match findIdxFrom (· = ':') line tokenPos with
    | none => true
    | some colonPos =>
      let afterColon := line.drop (colonPos + 1)
      match afterColon.findIdx? (· = '"') with
      | none => true
      | some firstQuote =>
        if hasUnescQuote false (afterColon.drop (firstQuote + 1)) then false else true

/-- The per-line loop of `remove_expert_summary_regex` (lines 38–106 of
`clean_json_advanced.py`).  Outside a span, a trigger line is dropped and
the state is set by `advStartState`; inside a span every line is dropped
and the span ends at the first line holding an unescaped quote. -/
def advLoop : Bool → List (List Char) → List (List Char)
  | _, [] => []
  | inExp, line :: rest =>
    if inExp then
      if hasUnescQuote false line then advLoop false rest else advLoop true rest
    else if triggerLine line then advLoop (advStartState line) rest
    else line :: advLoop false rest

/-- Stage 1 of `clean_json_advanced.py`. -/
def remove_expert_summary_regex (text : List Char) : List Char :=
  joinLines (advLoop false (splitLines text))

/-! ### The JSON value model -/

/-- JSON values as produced by the modelled `json.loads`: numbers are
integers (see the file comment), strings are character lists, objects are
insertion-ordered key/value lists. -/
inductive Json where
  | null
  | bool (b : Bool)
  | num (i : Int)
  | str (s : List Char)
  | arr (xs : List Json)
  | obj (fs : List (List Char × Json))

mutual
/-- Structural equality of JSON values (Lean's `DecidableEq` deriving does
not handle this nested inductive, so equality is by hand). -/
def jeq : Json → Json → Bool
  | Json.null, Json.null => true
  | Json.bool a, Json.bool b => a == b
  | Json.num a, Json.num b => a == b
  | Json.str a, Json.str b => a == b
  | Json.arr a, Json.arr b => jeqList a b
  | Json.obj a, Json.obj b => jeqObj a b
  | _, _ => false
def jeqList : List Json → List Json → Bool
  | [], [] => true
  | x :: xs, y :: ys => jeq x y && jeqList xs ys
  | _, _ => false
def jeqObj : List (List Char × Json) → List (List Char × Json) → Bool
  | [], [] => true
  | p :: ps, q :: qs => (p.1 == q.1) && jeq p.2 q.2 && jeqObj ps qs
  | _, _ => false
end

/-- Keys of an object list are pairwise distinct. -/
def nodupKeys : List (List Char × Json) → Bool
  | [] => true
  | p :: ps => !(ps.any (fun q => q.1 == p.1)) && nodupKeys ps

mutual
/-- Well-formedness: every object, at any depth, has pairwise-distinct keys.
Every value produced by the modelled `json.loads` is well-formed (Python
dicts cannot hold duplicate keys). -/
def jwf : Json → Bool
  | Json.arr xs => jwfList xs
  | Json.obj fs => nodupKeys fs && jwfObj fs
  | _ => true
def jwfList : List Json → Bool
  | [] => true
  | x :: xs => jwf x && jwfList xs
def jwfObj : List (List Char × Json) → Bool
  | [] => true
  | p :: ps => jwf p.2 && jwfObj ps
end

/-! ### The serializer: `json.dumps(data, indent=2, ensure_ascii=False)` -/

/-- A run of `n` spaces. -/
def spacesL (n : Nat) : List Char := List.replicate n ' '

/-- The character of decimal digit `n < 10`. -/
def digitChar (n : Nat) : Char := Char.ofNat (48 + n)

/-- Lowercase hex digit of `n < 16`, as Python's `'\\u%04x'` formatting. -/
def hexLower (n : Nat) : Char :=
  if n < 10 then Char.ofNat (48 + n) else Char.ofNat (87 + n)

/-- Decimal digits of `n`, most significant first; the first argument is
recursion fuel (any amount `≥ n` gives the digits of `n`). -/
def serNatAux : Nat → Nat → List Char
  | 0, n => [digitChar (n % 10)]
  | fuel + 1, n =>
    if n < 10 then [digitChar n]
    else serNatAux fuel (n / 10) ++ [digitChar (n % 10)]

/-- Decimal digits of `n`, as Python `str(n)` for naturals. -/
def serNat (n : Nat) : List Char := serNatAux n n

/-- Python `str(i)` for integers. -/
def serInt : Int → List Char
  | Int.ofNat n => serNat n
  | Int.negSucc n => '-' :: serNat (n + 1)

/-- One string character as emitted by `json.dumps` with
`ensure_ascii=False`: quote, backslash and the named control characters get
two-character escapes, other control characters get `\u00xx`, everything
else is emitted raw. -/
def escChar (c : Char) : List Char :=
  if c = '"' then ['\\', '"']
  else if c = '\\' then ['\\', '\\']
  else if c = '\n' then ['\\', 'n']
  else if c = '\r' then ['\\', 'r']
  else if c = '\t' then ['\\', 't']
  else if c.toNat = 8 then ['\\', 'b']
  else if c.toNat = 12 then ['\\', 'f']
  else if c.toNat < 32 then
    ['\\', 'u', '0', '0', hexLower (c.toNat / 16), hexLower (c.toNat % 16)]
  else [c]

/-- JSON-escape a whole string body. -/
def escStr : List Char → List Char
  | [] => []
  | c :: cs => escChar c ++ escStr cs

mutual
/-- `json.dumps(v, indent=2, ensure_ascii=False)` at nesting level `lvl`:
a nonempty container opens with a newline, indents items by two spaces per
level, separates them with `",\n"`, and closes at the parent indent;
empty containers print as `[]` and `{}`; keys are followed by `": "`. -/
def serInd : Nat → Json → List Char
  | _, Json.null => ['n', 'u', 'l', 'l']
  | _, Json.bool true => ['t', 'r', 'u', 'e']
  | _, Json.bool false => ['f', 'a', 'l', 's', 'e']
  | _, Json.num i => serInt i
  | _, Json.str s => '"' :: (escStr s ++ ['"'])
  | _, Json.arr [] => ['[', ']']
  | lvl, Json.arr (x :: xs) =>
    '[' :: '\n' :: (spacesL (2 * (lvl + 1)) ++ serInd (lvl + 1) x
      ++ serArrTail (lvl + 1) xs ++ '\n' :: (spacesL (2 * lvl) ++ [']']))
  | _, Json.obj [] => ['{', '}']
  | lvl, Json.obj (p :: ps) =>
    '{' :: '\n' :: (spacesL (2 * (lvl + 1))
      ++ '"' :: (escStr p.1 ++ '"' :: ':' :: ' ' :: serInd (lvl + 1) p.2)
      ++ serObjTail (lvl + 1) ps ++ '\n' :: (spacesL (2 * lvl) ++ ['}']))
def serArrTail : Nat → List Json → List Char
  | _, [] => []
  | lvl, x :: xs =>
    ',' :: '\n' :: (spacesL (2 * lvl) ++ serInd lvl x ++ serArrTail lvl xs)
def serObjTail : Nat → List (List Char × Json) → List Char
  | _, [] => []
  | lvl, p :: ps =>
    ',' :: '\n' :: (spacesL (2 * lvl)
      ++ '"' :: (escStr p.1 ++ '"' :: ':' :: ' ' :: serInd lvl p.2)
      ++ serObjTail lvl ps)
end

/-- Top-level `json.dumps(data, indent=2, ensure_ascii=False)`. -/
def jsonDumps (v : Json) : List Char := serInd 0 v

/-! ### The parser: `json.loads` on the modelled fragment -/

/-- Value of one hex digit, accepting both cases as Python does. -/
def hexDigitVal (c : Char) : Option Nat :=
  if 48 ≤ c.toNat && c.toNat ≤ 57 then some (c.toNat - 48)
  else if 97 ≤ c.toNat && c.toNat ≤ 102 then some (c.toNat - 87)
  else if 65 ≤ c.toNat && c.toNat ≤ 70 then some (c.toNat - 55)
  else none

/-- Value of a 4-digit hex escape payload. -/
def hex4 (a b c d : Char) : Option Nat := do
  let va ← hexDigitVal a
  let vb ← hexDigitVal b
  let vc ← hexDigitVal c
  let vd ← hexDigitVal d
  some (((va * 16 + vb) * 16 + vc) * 16 + vd)

/-- Python's `BACKSLASH` table: the two-character escapes. -/
def escMap : Char → Option Char
  | '"' => some '"'
  | '\\' => some '\\'
  | '/' => some '/'
  | 'b' => some (Char.ofNat 8)
  | 'f' => some (Char.ofNat 12)
  | 'n' => some '\n'
  | 'r' => some '\r'
  | 't' => some '\t'
  | _ => none

/-- String body after the opening quote, as Python's strict `py_scanstring`:
raw control characters (below 0x20) are errors, `\uXXXX` escapes are
decoded with surrogate-pair combination.  A lone surrogate (which Python
would keep) is outside the modelled fragment and is rejected. -/
def parseStrBody : List Char → Option (List Char × List Char)
  | [] => none
  | '"' :: rest => some ([], rest)
  | '\\' :: 'u' :: a :: b :: c :: d :: rest =>
    (match hex4 a b c d with
     | none => none
     | some n =>
       if 0xD800 ≤ n ∧ n < 0xDC00 then
         match rest with
         | '\\' :: 'u' :: a2 :: b2 :: c2 :: d2 :: rest2 =>
           (match hex4 a2 b2 c2 d2 with
            | none => none
            | some m =>
              if 0xDC00 ≤ m ∧ m < 0xE000 then
                (parseStrBody rest2).map
                  (fun p => (Char.ofNat (0x10000 + (n - 0xD800) * 0x400 + (m - 0xDC00)) :: p.1, p.2))
              else none)
         | _ => none
       else if 0xDC00 ≤ n ∧ n < 0xE000 then none
       else (parseStrBody rest).map (fun p => (Char.ofNat n :: p.1, p.2)))
  | '\\' :: e :: rest =>
    (match escMap e with
     | none => none
     | some ch => (parseStrBody rest).map (fun p => (ch :: p.1, p.2)))
  | ['\\'] => none
  | c :: rest =>
    if c.toNat < 32 then none
    else (parseStrBody rest).map (fun p => (c :: p.1, p.2))

/-- Leading digit run of a list. -/
def spanDigits : List Char → List Char × List Char
  | [] => ([], [])
  | c :: cs =>
    if isDigitChar c then
      let p := spanDigits cs
      (c :: p.1, p.2)
    else ([], c :: cs)

/-- Numeric value of a digit run. -/
def digitsVal (ds : List Char) : Nat :=
  ds.foldl (fun n c => n * 10 + (c.toNat - 48)) 0

/-- The integer part of Python's `NUMBER_RE`: `0`, or a nonzero digit
followed by a digit run (after a leading `0` no further digits are
consumed, matching the regex alternative `0|[1-9]\d*`). -/
def parseNatLex : List Char → Option (Nat × List Char)
  | [] => none
  | c :: rest =>
    if c = '0' then some (0, rest)
    else if isDigitChar c then
      some (digitsVal (c :: (spanDigits rest).1), (spanDigits rest).2)
    else none

/-- Optional sign before the integer part. -/
def parseIntLex : List Char → Option (Int × List Char)
  | '-' :: cs => (parseNatLex cs).map (fun p => (-(p.1 : Int), p.2))
  | cs => (parseNatLex cs).map (fun p => ((p.1 : Int), p.2))

/-- A character that would extend an integer lexeme into a float lexeme. -/
def numCont (c : Char) : Bool := c == '.' || c == 'e' || c == 'E'

/-- Number scanning on the modelled fragment: an integer lexeme not
followed by `.`/`e`/`E`.  A lexeme Python would read as a float is outside
the fragment and rejected. -/
def parseNum (cs : List Char) : Option (Json × List Char) :=
  match parseIntLex cs with
  | none => none
  | some (i, rest) =>
    match rest with
    | [] => some (Json.num i, rest)
    | c :: _ => if numCont c then none else some (Json.num i, rest)

/-- Python dict item assignment `d[k] = v` on an insertion-ordered
key/value list: an existing key keeps its position and gets the new value,
a new key is appended. -/
def setKey : List (List Char × Json) → List Char → Json → List (List Char × Json)
  | [], k, v => [(k, v)]
  | p :: ps, k, v => if p.1 = k then (k, v) :: ps else p :: setKey ps k v

mutual
/-- `scan_once`: dispatch on the first character.  Callers position the
input on a non-whitespace character, as CPython's decoder does.  The fuel
argument only bounds recursion; `jsonLoads` passes enough for any input. -/
def parseValue : Nat → List Char → Option (Json × List Char)
  | 0, _ => none
  | fuel + 1, cs =>
    match cs with
    | '{' :: rest => parseObjBody fuel (skipWs rest)
    | '[' :: rest => parseArrBody fuel (skipWs rest)
    | '"' :: rest => (parseStrBody rest).map (fun p => (Json.str p.1, p.2))
    | 't' :: 'r' :: 'u' :: 'e' :: rest => some (Json.bool true, rest)
    | 'f' :: 'a' :: 'l' :: 's' :: 'e' :: rest => some (Json.bool false, rest)
    | 'n' :: 'u' :: 'l' :: 'l' :: rest => some (Json.null, rest)
    | c :: rest => if c = '-' || isDigitChar c then parseNum (c :: rest) else none
    | [] => none
/-- Array items after `[` and whitespace: `]` closes an empty array,
otherwise a first value then `parseArrTail`. -/
def parseArrBody : Nat → List Char → Option (Json × List Char)
  | 0, _ => none
  | fuel + 1, cs =>
    match cs with
    | [] => none
    | c :: rest =>
      if c = ']' then some (Json.arr [], rest)
      else
        match parseValue fuel (c :: rest) with
        | none => none
        | some (v, r) => parseArrTail fuel [v] r
/-- After each array item: whitespace, then `]` or `,` and the next item. -/
def parseArrTail : Nat → List Json → List Char → Option (Json × List Char)
  | 0, _, _ => none
  | fuel + 1, acc, cs =>
    match skipWs cs with
    | ']' :: rest => some (Json.arr acc, rest)
    | ',' :: rest =>
      (match parseValue fuel (skipWs rest) with
       | none => none
       | some (v, r) => parseArrTail fuel (acc ++ [v]) r)
    | _ => none
/-- Object members after `{` and whitespace: `}` closes an empty object,
otherwise a quoted key, whitespace, `:`, whitespace, a value, then
`parseObjTail`. -/
def parseObjBody : Nat → List Char → Option (Json × List Char)
  | 0, _ => none
  | fuel + 1, cs =>
    match cs with
    | '}' :: rest => some (Json.obj [], rest)
    | '"' :: rest =>
      (match parseStrBody rest with
       | none => none
       | some (k, r1) =>
         match skipWs r1 with
         | ':' :: r2 =>
           (match parseValue fuel (skipWs r2) with
            | none => none
            | some (v, r3) => parseObjTail fuel (setKey [] k v) r3)
         | _ => none)
    | _ => none
/-- After each member: whitespace, then `}` or `,`, whitespace, and the
next quoted key.  Members land in the accumulator through `setKey`, giving
Python's duplicate-key semantics. -/
def parseObjTail : Nat → List (List Char × Json) → List Char → Option (Json × List Char)
  | 0, _, _ => none
  | fuel + 1, acc, cs =>
    match skipWs cs with
    | '}' :: rest => some (Json.obj acc, rest)
    | ',' :: rest =>
      (match skipWs rest with
       | '"' :: r1 =>
         (match parseStrBody r1 with
          | none => none
          | some (k, r2) =>
            match skipWs r2 with
            | ':' :: r3 =>
              (match parseValue fuel (skipWs r3) with
               | none => none
               | some (v, r4) => parseObjTail fuel (setKey acc k v) r4)
            | _ => none)
       | _ => none)
    | _ => none
end

/-- `json.loads`: skip leading whitespace, scan one value, require only
whitespace after it.  The fuel `2·n + 2` exceeds the parser's recursion
depth on any input of length `n` (each unit of depth past the first
consumes at least half a character). -/
def jsonLoads (cs : List Char) : Option Json :=
  let body := skipWs cs
  match parseValue (2 * body.length + 2) body with
  | none => none
  | some (v, rest) => if skipWs rest = [] then some v else none

/-! ### Stage 2: the shared deserialize–delete–reserialize pass -/

/-- Python `'expert_summary' in item`: key lookup on a dict, substring test
on a string, membership on a list; on a number, boolean or `None` the `in`
operator raises `TypeError` (modelled as `none`). -/
def pyIn : Json → Option Bool
  | Json.obj fs => some (fs.any (fun p => p.1 == keyChars))
  | Json.str s => some (hasSubstr keyChars s)
  | Json.arr xs => some (xs.any (fun x => jeq x (Json.str keyChars)))
  | _ => none

/-- Python `del d['expert_summary']` on a dict with distinct keys: remove
the entry.  (Written as first-occurrence removal on the ordered list.) -/
def delKeyFirst : List (List Char × Json) → List (List Char × Json)
  | [] => []
  | p :: ps => if p.1 = keyChars then ps else p :: delKeyFirst ps

/-- Python `del item['expert_summary']`: valid on a dict, a `TypeError` on
anything else (strings and lists reach this only when the membership test
succeeded). -/
def pyDel : Json → Option Json
  | Json.obj fs => some (Json.obj (delKeyFirst fs))
  | _ => none

/-- One iteration of the scripts' loop body:
`if 'expert_summary' in item: del item['expert_summary']`. -/
def removeItem (j : Json) : Option Json :=
  match pyIn j with
  | none => none
  | some true => pyDel j
  | some false => some j

/-- The loop over a list's items. -/
def removeListLoop : List Json → Option (List Json)
  | [] => some []
  | j :: js =>
    match removeItem j with
    | none => none
    | some j2 => (removeListLoop js).map (fun l => j2 :: l)

/-- The whole `for item in data:` loop of both scripts.  Iterating a dict
yields its keys (strings): a key containing the bare token would make the
`del` on a string raise, otherwise the dict is unchanged; iterating a
string yields length-1 strings which never contain the 14-character token;
a number, boolean or `None` is not iterable. -/
def removePass : Json → Option Json
  | Json.arr xs => (removeListLoop xs).map Json.arr
  | Json.obj fs =>
    if fs.any (fun p => hasSubstr keyChars p.1) then none else some (Json.obj fs)
  | Json.str s => some (Json.str s)
  | _ => none

/-- Python `len(data)`, reached only after `removePass` succeeds (so `data`
is a list, dict or string). -/
def jsonLen : Json → Nat
  | Json.arr xs => xs.length
  | Json.obj fs => fs.length
  | Json.str s => s.length
  | _ => 0

/-- `clean_json_file` of `clean_json.py` as a text transform: Stage 1, then
`json.loads`; on success the removal loop, `json.dumps(·, indent=2,
ensure_ascii=False)` written to the output file and `True` returned; on a
`JSONDecodeError` the Stage-1 text is written to the output file and
`False` returned.  The pair holds the returned flag and the text written;
`none` is an uncaught exception in the removal loop. -/
def clean_json_file_basic (text : List Char) : Option (Bool × List Char) :=
  let cleaned := remove_expert_summary_fields text
  match jsonLoads cleaned with
  | none => some (false, cleaned)
  | some data =>
    match removePass data with
    | none => none
    | some d2 => some (true, jsonDumps d2)

/-- `clean_json_file` of `clean_json_advanced.py`: like the basic variant
but with its own Stage 1, returning `(success, entry_count)`; on failure
the count is 0 and the Stage-1 text goes to the `.intermediate` file
(the triple holds flag, count, and the text written).  `none` is an
uncaught exception in the removal loop. -/
def clean_json_file_advanced (text : List Char) : Option (Bool × Nat × List Char) :=
  let cleaned := remove_expert_summary_regex text
  match jsonLoads cleaned with
  | none => some (false, 0, cleaned)
  | some data =>
    match removePass data with
    | none => none
    | some d2 => some (true, jsonLen d2, jsonDumps d2)

/-! ### Specification-side definitions -/

/-- Modelled from the spec: exact stripping of the target field from one
record — remove exactly the `expert_summary` entries and keep every other
entry, its value, and the order unchanged. -/
def specStripRecord : Json → Json
  | Json.obj fs => Json.obj (fs.filter (fun p => !(p.1 == keyChars)))
  | j => j

/-- Every top-level record of the value is free of the target field. -/
def noTopKey : Json → Bool
  | Json.arr xs =>
    xs.all (fun x =>
      match x with
      | Json.obj fs => !(fs.any (fun p => p.1 == keyChars))
      | _ => true)
  | Json.obj fs => !(fs.any (fun p => p.1 == keyChars))
  | _ => true

/-- The item is a record (object) without the target field. -/
def isObjNoKey : Json → Bool
  | Json.obj fs => !(fs.any (fun p => p.1 == keyChars))
  | _ => false

/-- The item is a record (object). -/
def isObjItem : Json → Bool
  | Json.obj _ => true
  | _ => false

/-! ### Auxiliary definitions for the proofs -/

/-- The `escaped` flag after scanning a list of characters. -/
def escRun : Bool → List Char → Bool
  | e, [] => e
  | true, _ :: cs => escRun false cs
  | false, c :: cs => if c = '\\' then escRun true cs else escRun false cs

/-- A remainder that cannot extend an integer lexeme: empty, or headed by a
character that is neither a digit nor `.`/`e`/`E`.  Every position following
a serialized value (`,`, `]`, `}`, newline, end of input) qualifies. -/
def delimOk : List Char → Bool
  | [] => true
  | c :: _ => !(isDigitChar c || numCont c)

/-- The first character is a digit. -/
def digitHead : List Char → Bool
  | [] => false
  | c :: _ => isDigitChar c

/-- Every character of the list is JSON whitespace. -/
def wsRun : List Char → Bool
  | [] => true
  | c :: cs => isWsChar c && wsRun cs

/-! ### Concrete inputs for the claims -/

/-- Short keys used by the concrete inputs below. -/
def keyId : List Char := ("id").toList

def keyA : List Char := ("a").toList

def keyName : List Char := ("name").toList

def keyX : List Char := ("x").toList

/-- C1 counterexample input: the `name` member shares its line with nothing
else, but the basic filter also drops the line after the field line. -/
def c1cIn : List Char :=
  ("[\n\x7b\"id\": 1,\n\"expert_summary\": \"s\",\n\"name\": \"A\",\n\"x\": 2\x7d,\n\x7b\"id\": 2\x7d\n]").toList

/-- The records `c1cIn` denotes. -/
def c1cRecs : List Json :=
  [Json.obj [(keyId, Json.num 1), (keyChars, Json.str (("s").toList)),
    (keyName, Json.str (("A").toList)), (keyX, Json.num 2)],
   Json.obj [(keyId, Json.num 2)]]

/-- What `clean_json.py` actually produces from `c1cIn`: the `name` member is
gone as well. -/
def c1cWrong : List Json :=
  [Json.obj [(keyId, Json.num 1), (keyX, Json.num 2)], Json.obj [(keyId, Json.num 2)]]

/-- The spec's concrete scenario (C2): one array with a literal newline
inside the `expert_summary` value. -/
def c2In : List Char :=
  ("[\x7b\"id\":1,\"expert_summary\":\"line one\nline two\",\"name\":\"A\"\x7d,\x7b\"id\":2,\"name\":\"B\"\x7d]").toList

/-- C3 counterexample input: Stage 2 parses `[1]`, then
`'expert_summary' in 1` raises `TypeError`. -/
def c3In : List Char := ("[1]").toList

/-- C4 counterexample input: a string value equal to the bare key, with the
member colon on its own line so that no line of the input triggers Stage 1. -/
def c4In : List Char := ("[\x7b\"a\"\n:\n\"expert_summary\"\x7d]").toList

/-- First-pass output of `clean_json_file` on `c4In`; its third line contains
the quoted token and a colon, so a second pass triggers on it. -/
def c4Out : List Char := ("[\n  \x7b\n    \"a\": \"expert_summary\"\n  \x7d\n]").toList

/-- What the second pass leaves of `c4Out` before the failing parse. -/
def c4Bad : List Char := ("[\n  \x7b").toList

/-- Witness input: one record, no target field, no trigger line. -/
def c5wIn : List Char := ("[\x7b\"a\": 1\x7d]").toList

/-- The record list of `c5wIn`. -/
def c5wItems : List Json := [Json.obj [(keyA, Json.num 1)]]

/-- Pretty-printed form of the `c5wIn` data. -/
def c5wOut : List Char := ("[\n  \x7b\n    \"a\": 1\n  \x7d\n]").toList

/-- C5 counterexample input: the field one level down; no top-level record
holds it, yet the single line contains the token and a colon. -/
def c5In : List Char := ("[\x7b\"a\": \x7b\"expert_summary\": 1\x7d\x7d]").toList

/-- The collection `c5In` denotes. -/
def c5Data : Json := Json.arr [Json.obj [(keyA, Json.obj [(keyChars, Json.num 1)])]]

/-- C6 counterexample input: the nested key's colon sits on the next line,
so no line triggers Stage 1 and the nested field survives. -/
def c6In : List Char := ("[\x7b\"a\": \x7b\n\"expert_summary\"\n: 1\x7d\x7d]").toList

/-- Output of both variants on `c6In`: success, with the token inside. -/
def c6Out : List Char :=
  ("[\n  \x7b\n    \"a\": \x7b\n      \"expert_summary\": 1\n    \x7d\n  \x7d\n]").toList

/-- C8 counterexample line: a colon present, but before the key token and
never directly after it. -/
def c8In : List Char := (": \"expert_summary\"").toList

/-- C9 counterexample input: a single-line field inside a multi-line record;
the two Stage-1 filters drop different line sets. -/
def c9In : List Char :=
  ("[\n\x7b\"id\": 1,\n\"expert_summary\": \"s\",\n\"name\": \"A\"\x7d,\n\x7b\"id\": 2, \"name\": \"B\"\x7d\n]").toList

/-- `remove_expert_summary_fields` on `c9In` (drops the `name` line too). -/
def c9BasicOut : List Char := ("[\n\x7b\"id\": 1,\n\x7b\"id\": 2, \"name\": \"B\"\x7d\n]").toList

/-- `remove_expert_summary_regex` on `c9In` (drops only the field line). -/
def c9AdvOut : List Char :=
  ("[\n\x7b\"id\": 1,\n\"name\": \"A\"\x7d,\n\x7b\"id\": 2, \"name\": \"B\"\x7d\n]").toList

/-- What the advanced Stage 1 leaves of `c1cIn`, parsed. -/
def c1cKeep : List Json :=
  [Json.obj [(keyId, Json.num 1), (keyName, Json.str (("A").toList)), (keyX, Json.num 2)],
   Json.obj [(keyId, Json.num 2)]]

/-- A text both Stage-1 filters pass through and `json.loads` rejects. -/
def brokenIn : List Char := ("[").toList

/-- A fixed point of both pipelines: the empty array's pretty print. -/
def c4wText : List Char := ("[]").toList

/-- A trigger-free witness input for the variant-agreement claim. -/
def c9wIn : List Char := ("[1, 2]").toList

/-! ### Equality of JSON values: reflexivity and disequality transfer -/

mutual
theorem jeq_refl : ∀ v : Json, jeq v v = true
  | Json.null => rfl
  | Json.bool b => by simp [jeq]
  | Json.num i => by simp [jeq]
  | Json.str s => by simp [jeq]
  | Json.arr xs => by simpa [jeq] using jeqList_refl xs
  | Json.obj fs => by simpa [jeq] using jeqObj_refl fs
theorem jeqList_refl : ∀ xs : List Json, jeqList xs xs = true
  | [] => rfl
  | x :: xs => by simp [jeqList, jeq_refl x, jeqList_refl xs]
theorem jeqObj_refl : ∀ fs : List (List Char × Json), jeqObj fs fs = true
  | [] => rfl
  | p :: ps => by simp [jeqObj, jeq_refl p.2, jeqObj_refl ps]
end

/-- Values with `jeq … = false` are distinct (used to read off structural
disequalities from computed `jeq` results). -/
theorem ne_of_jeq_false {a b : Json} (h : jeq a b = false) : a ≠ b := by
  intro he
  subst he
  rw [jeq_refl a] at h
  simp at h

/-! ### Splitting and joining lines -/

theorem splitLines_ne_nil : ∀ t : List Char, splitLines t ≠ []
  | [] => by simp [splitLines]
  | c :: cs => by
    by_cases h : c = '\n'
    · simp [splitLines, h]
    · have := splitLines_ne_nil cs
      simp only [splitLines, if_neg h]
      match hs : splitLines cs with
      | [] => simp
      | l :: ls => simp

theorem joinLines_splitLines : ∀ t : List Char, joinLines (splitLines t) = t := by
  intro t
  induction t with
  | nil => rfl
  | cons c cs ih =>
    by_cases h : c = '\n'
    · subst h
      simp only [splitLines, if_pos rfl]
      match hs : splitLines cs with
      | [] => exact absurd hs (splitLines_ne_nil cs)
      | l :: ls =>
        rw [hs] at ih
        simp [joinLines, ih]
    · simp only [splitLines, if_neg h]
      match hs : splitLines cs with
      | [] => exact absurd hs (splitLines_ne_nil cs)
      | l :: ls =>
        rw [hs] at ih
        match ls with
        | [] => simp_all [joinLines]
        | l2 :: ls2 => simp_all [joinLines]

/-- A text without newline characters is a single line. -/
theorem splitLines_single {t : List Char} (h : t.contains '\n' = false) :
    splitLines t = [t] := by
  induction t with
  | nil => rfl
  | cons c cs ih =>
    rw [List.contains_cons] at h
    have hc : ¬(c = '\n') := by
      intro he
      subst he
      simp at h
    have hcs : cs.contains '\n' = false := by
      revert h
      cases cs.contains '\n' <;> simp
    simp [splitLines, hc, ih hcs]

/-! ### Stage 1 keeps a verbatim subsequence of the input lines -/

theorem basicLoop_sublist : ∀ (s1 s2 : Bool) (ls : List (List Char)),
    List.Sublist (basicLoop s1 s2 ls) ls := by
  intro s1 s2 ls
  induction ls generalizing s1 s2 with
  | nil => simp [basicLoop]
  | cons l rest ih =>
    simp only [basicLoop]
    by_cases h1 : triggerLine l = true
    · simp only [if_pos h1]
      exact List.Sublist.cons l (ih true true)
    · simp only [if_neg h1]
      by_cases h2 : s1 = true
      · simp only [if_pos h2]
        by_cases h3 : quoteCount false (if s2 = true then exLinePart l else l) % 2 = 1
        · simp only [if_pos h3]
          exact List.Sublist.cons l (ih false false)
        · simp only [if_neg h3]
          exact List.Sublist.cons l (ih true false)
      · simp only [if_neg h2]
        exact List.Sublist.cons₂ l (ih s1 s2)

theorem advLoop_sublist : ∀ (s : Bool) (ls : List (List Char)),
    List.Sublist (advLoop s ls) ls := by
  intro s ls
  induction ls generalizing s with
  | nil => simp [advLoop]
  | cons l rest ih =>
    simp only [advLoop]
    by_cases h1 : s = true
    · simp only [if_pos h1]
      by_cases h2 : hasUnescQuote false l = true
      · simp only [if_pos h2]
        exact List.Sublist.cons l (ih false)
      · simp only [if_neg h2]
        exact List.Sublist.cons l (ih true)
    · simp only [if_neg h1]
      by_cases h3 : triggerLine l = true
      · simp only [if_pos h3]
        exact List.Sublist.cons l (ih _)
      · simp only [if_neg h3]
        exact List.Sublist.cons₂ l (ih false)

/-! ### Stage 1 on trigger-free input is the identity -/

theorem basicLoop_keep_all : ∀ ls : List (List Char),
    (∀ l ∈ ls, triggerLine l = false) → basicLoop false false ls = ls := by
  intro ls h
  induction ls with
  | nil => rfl
  | cons l rest ih =>
    have hl : triggerLine l = false := h l (List.mem_cons_self l rest)
    have hrest := ih (fun x hx => h x (List.mem_cons_of_mem l hx))
    simp [basicLoop, hl, hrest]

theorem advLoop_keep_all : ∀ ls : List (List Char),
    (∀ l ∈ ls, triggerLine l = false) → advLoop false ls = ls := by
  intro ls h
  induction ls with
  | nil => rfl
  | cons l rest ih =>
    have hl : triggerLine l = false := h l (List.mem_cons_self l rest)
    have hrest := ih (fun x hx => h x (List.mem_cons_of_mem l hx))
    simp [advLoop, hl, hrest]

/-- Both Stage-1 filters leave a text unchanged when no line of it passes
the trigger test. -/
theorem stage1_id_of_no_trigger {t : List Char}
    (h : ∀ l ∈ splitLines t, triggerLine l = false) :
    remove_expert_summary_fields t = t ∧ remove_expert_summary_regex t = t := by
  constructor
  · rw [remove_expert_summary_fields, basicLoop_keep_all _ h, joinLines_splitLines]
  · rw [remove_expert_summary_regex, advLoop_keep_all _ h, joinLines_splitLines]

/-! ### The escape-pair scanners -/

theorem quoteCount_append : ∀ (a : List Char) (s : Bool) (b : List Char),
    quoteCount s (a ++ b) = quoteCount s a + quoteCount (escRun s a) b := by
  intro a
  induction a with
  | nil => intro s b; simp [quoteCount, escRun]
  | cons c cs ih =>
    intro s b
    cases s with
    | true => simp [quoteCount, escRun, ih]
    | false =>
      by_cases h1 : c = '\\'
      · simp [quoteCount, escRun, h1, ih]
      · by_cases h2 : c = '"'
        · simp [quoteCount, escRun, h1, h2, ih]
          omega
        · simp [quoteCount, escRun, h1, h2, ih]

theorem hasUnescQuote_append : ∀ (a : List Char) (s : Bool) (b : List Char),
    hasUnescQuote s (a ++ b) = (hasUnescQuote s a || hasUnescQuote (escRun s a) b) := by
  intro a
  induction a with
  | nil => intro s b; simp [hasUnescQuote, escRun]
  | cons c cs ih =>
    intro s b
    cases s with
    | true => simp [hasUnescQuote, escRun, ih]
    | false =>
      by_cases h1 : c = '\\'
      · simp [hasUnescQuote, escRun, h1, ih]
      · by_cases h2 : c = '"'
        · simp [hasUnescQuote, escRun, h1, h2]
        · simp [hasUnescQuote, escRun, h1, h2, ih]

/-! ### Number round trip -/

theorem digitChar_toNat : ∀ k, k < 10 → (digitChar k).toNat = 48 + k := by decide

theorem digitChar_isDigit : ∀ k, k < 10 → isDigitChar (digitChar k) = true := by decide

theorem digitChar_ne_zero : ∀ k, k < 10 → 1 ≤ k → digitChar k ≠ '0' := by decide

theorem digitChar_zero : digitChar 0 = '0' := by decide

theorem serNatAux_fuel : ∀ n fuel fuel2, n ≤ fuel → n ≤ fuel2 →
    serNatAux fuel n = serNatAux fuel2 n := by
  intro n
  induction n using Nat.strong_induction_on with
  | _ n ih =>
    intro fuel fuel2 h1 h2
    match fuel, fuel2 with
    | 0, 0 => rfl
    | 0, f2 + 1 =>
      have : n = 0 := Nat.le_zero.mp h1
      subst this
      simp [serNatAux]
    | f1 + 1, 0 =>
      have : n = 0 := Nat.le_zero.mp h2
      subst this
      simp [serNatAux]
    | f1 + 1, f2 + 1 =>
      by_cases h : n < 10
      · simp [serNatAux, h]
      · have hd : n / 10 < n := Nat.div_lt_self (by omega) (by omega)
        simp only [serNatAux, if_neg h]
        rw [ih (n / 10) hd f1 f2 (by omega) (by omega)]

theorem serNat_lt10 {n : Nat} (h : n < 10) : serNat n = [digitChar n] := by
  match n with
  | 0 => rfl
  | m + 1 => simp [serNat, serNatAux, h]

theorem serNat_ge10 {n : Nat} (h : 10 ≤ n) :
    serNat n = serNat (n / 10) ++ [digitChar (n % 10)] := by
  match n, h with
  | m + 1, h =>
    have hd : (m + 1) / 10 < m + 1 := Nat.div_lt_self (by omega) (by omega)
    simp only [serNat, serNatAux, if_neg (by omega : ¬(m + 1 < 10))]
    rw [serNatAux_fuel ((m + 1) / 10) m ((m + 1) / 10) (by omega) (by omega)]

theorem serNat_all_digits : ∀ n, ∀ c ∈ serNat n, isDigitChar c = true := by
  intro n
  induction n using Nat.strong_induction_on with
  | _ n ih =>
    by_cases h : n < 10
    · rw [serNat_lt10 h]
      intro c hc
      rw [List.mem_singleton] at hc
      subst hc
      exact digitChar_isDigit n h
    · rw [serNat_ge10 (by omega)]
      intro c hc
      rw [List.mem_append] at hc
      cases hc with
      | inl h1 => exact ih (n / 10) (Nat.div_lt_self (by omega) (by omega)) c h1
      | inr h2 =>
        rw [List.mem_singleton] at h2
        subst h2
        exact digitChar_isDigit _ (Nat.mod_lt _ (by omega))

theorem serNat_ne_nil (n : Nat) : serNat n ≠ [] := by
  by_cases h : n < 10
  · rw [serNat_lt10 h]; simp
  · rw [serNat_ge10 (by omega)]; simp

theorem digitsVal_append_one (a : List Char) (c : Char) :
    digitsVal (a ++ [c]) = digitsVal a * 10 + (c.toNat - 48) := by
  simp [digitsVal, List.foldl_append]

theorem digitsVal_serNat : ∀ n, digitsVal (serNat n) = n := by
  intro n
  induction n using Nat.strong_induction_on with
  | _ n ih =>
    by_cases h : n < 10
    · rw [serNat_lt10 h]
      simp [digitsVal, digitChar_toNat n h]
    · rw [serNat_ge10 (by omega), digitsVal_append_one,
        ih (n / 10) (Nat.div_lt_self (by omega) (by omega)),
        digitChar_toNat _ (Nat.mod_lt _ (by omega))]
      omega

theorem serNat_head {n : Nat} (h : n ≠ 0) :
    ∃ c t, serNat n = c :: t ∧ isDigitChar c = true ∧ c ≠ '0' := by
  induction n using Nat.strong_induction_on with
  | _ n ih =>
    by_cases h10 : n < 10
    · refine ⟨digitChar n, [], serNat_lt10 h10, digitChar_isDigit n h10, ?_⟩
      exact digitChar_ne_zero n h10 (by omega)
    · obtain ⟨c, t, he, hd, hz⟩ :=
        ih (n / 10) (Nat.div_lt_self (by omega) (by omega)) (by omega)
      exact ⟨c, t ++ [digitChar (n % 10)], by rw [serNat_ge10 (by omega), he]; rfl, hd, hz⟩

theorem spanDigits_stop {rest : List Char} (h : digitHead rest = false) :
    spanDigits rest = ([], rest) := by
  match rest with
  | [] => rfl
  | c :: t =>
    simp only [digitHead] at h
    simp [spanDigits, h]

theorem spanDigits_run : ∀ (ds : List Char), (∀ c ∈ ds, isDigitChar c = true) →
    ∀ {rest : List Char}, digitHead rest = false → spanDigits (ds ++ rest) = (ds, rest) := by
  intro ds hds
  induction ds with
  | nil => intro rest h; simpa using spanDigits_stop h
  | cons c t ih =>
    intro rest h
    have hc : isDigitChar c = true := hds c (List.mem_cons_self c t)
    have ht := ih (fun x hx => hds x (List.mem_cons_of_mem c hx)) h
    simp [spanDigits, hc, ht]

theorem parseNatLex_serNat {n : Nat} {rest : List Char} (h : digitHead rest = false) :
    parseNatLex (serNat n ++ rest) = some (n, rest) := by
  by_cases h0 : n = 0
  · subst h0
    rw [serNat_lt10 (by omega), digitChar_zero]
    simp [parseNatLex]
  · obtain ⟨c, t, he, hd, hz⟩ := serNat_head h0
    have htd : ∀ x ∈ t, isDigitChar x = true := by
      intro x hx
      exact serNat_all_digits n x (by rw [he]; exact List.mem_cons_of_mem c hx)
    have hspan := spanDigits_run t htd h
    rw [he]
    simp only [List.cons_append, parseNatLex, if_neg hz, if_pos hd, hspan]
    have : digitsVal (c :: t) = n := by
      have := digitsVal_serNat n
      rwa [he] at this
    rw [this]

theorem serInt_nonneg (n : Nat) : serInt (Int.ofNat n) = serNat n := rfl

theorem parseIntLex_serInt {i : Int} {rest : List Char} (h : digitHead rest = false) :
    parseIntLex (serInt i ++ rest) = some (i, rest) := by
  match i with
  | Int.ofNat n =>
    rw [serInt_nonneg]
    obtain ⟨c, t, he⟩ : ∃ c t, serNat n = c :: t := by
      match hx : serNat n with
      | [] => exact absurd hx (serNat_ne_nil n)
      | c :: t => exact ⟨c, t, rfl⟩
    have hdig : isDigitChar c = true :=
      serNat_all_digits n c (by rw [he]; exact List.mem_cons_self c t)
    have hneg : c ≠ '-' := by
      intro hcontra
      subst hcontra
      simp [isDigitChar] at hdig
    rw [he, List.cons_append, parseIntLex.eq_def]
    have hlex := parseNatLex_serNat (n := n) h
    rw [he, List.cons_append] at hlex
    match hc : c with
    | '-' => exact absurd rfl hneg
    | c =>
      split
      · rename_i heq
        rw [List.cons.injEq] at heq
        exact absurd heq.1 hneg
      · rw [hlex]
        rfl
  | Int.negSucc n =>
    have hser : serInt (Int.negSucc n) = '-' :: serNat (n + 1) := rfl
    have hstep : parseIntLex ('-' :: (serNat (n + 1) ++ rest))
        = (parseNatLex (serNat (n + 1) ++ rest)).map (fun p => (-(p.1 : Int), p.2)) := rfl
    rw [hser, List.cons_append, hstep, parseNatLex_serNat (n := n + 1) h]
    simp [Int.negSucc_eq]

theorem delimOk_head {c : Char} {t : List Char} (h : delimOk (c :: t) = true) :
    isDigitChar c = false ∧ numCont c = false := by
  simp only [delimOk, Bool.not_eq_eq_eq_not, Bool.not_true, Bool.or_eq_false_iff] at h
  exact h

theorem delimOk_digitHead {r : List Char} (h : delimOk r = true) : digitHead r = false := by
  match r with
  | [] => rfl
  | c :: t =>
    simp [digitHead, (delimOk_head h).1]

theorem parseNum_serInt {i : Int} {rest : List Char} (h : delimOk rest = true) :
    parseNum (serInt i ++ rest) = some (Json.num i, rest) := by
  rw [parseNum, parseIntLex_serInt (delimOk_digitHead h)]
  match rest with
  | [] => rfl
  | c :: t =>
    simp [(delimOk_head h).2]

/-! ### String round trip -/

theorem hexDigitVal_hexLower : ∀ n, n < 16 → hexDigitVal (hexLower n) = some n := by decide

theorem parseStrBody_raw {c : Char} {X : List Char}
    (hq : ¬(c = '"')) (hb : ¬(c = '\\')) (hc : ¬(c.toNat < 32)) :
    parseStrBody (c :: X) = (parseStrBody X).map (fun p => (c :: p.1, p.2)) := by
  rw [parseStrBody.eq_def]
  simp [hq, hb, hc]

theorem hex4_hexLower (n : Nat) (h : n < 256) :
    hex4 '0' '0' (hexLower (n / 16)) (hexLower (n % 16)) = some n := by
  have e0 : hexDigitVal '0' = some 0 := rfl
  have e1 : hexDigitVal (hexLower (n / 16)) = some (n / 16) :=
    hexDigitVal_hexLower _ (by omega)
  have e2 : hexDigitVal (hexLower (n % 16)) = some (n % 16) :=
    hexDigitVal_hexLower _ (Nat.mod_lt _ (by omega))
  simp [hex4, e0, e1, e2]
  omega

theorem escChar_control_step (c : Char) (X : List Char) (hlt : c.toNat < 32) :
    parseStrBody (('\\' :: 'u' :: '0' :: '0'
        :: hexLower (c.toNat / 16) :: hexLower (c.toNat % 16) :: []) ++ X)
      = (parseStrBody X).map (fun p => (c :: p.1, p.2)) := by
  have hx := hex4_hexLower c.toNat (by omega)
  simp only [List.cons_append, List.nil_append, parseStrBody, hx]
  rw [if_neg (by omega), if_neg (by omega), Char.ofNat_toNat]

theorem parseStrBody_escChar (c : Char) (X : List Char) :
    parseStrBody (escChar c ++ X) = (parseStrBody X).map (fun p => (c :: p.1, p.2)) := by
  by_cases h1 : c = '"'
  · subst h1; rfl
  by_cases h2 : c = '\\'
  · subst h2; rfl
  by_cases h3 : c = '\n'
  · subst h3; rfl
  by_cases h4 : c = '\r'
  · subst h4; rfl
  by_cases h5 : c = '\t'
  · subst h5; rfl
  by_cases h6 : c.toNat = 8
  · have hc : c = Char.ofNat 8 := by
      rw [← h6, Char.ofNat_toNat]
    subst hc
    rfl
  by_cases h7 : c.toNat = 12
  · have hc : c = Char.ofNat 12 := by
      rw [← h7, Char.ofNat_toNat]
    subst hc
    rfl
  by_cases h8 : c.toNat < 32
  · rw [escChar, if_neg h1, if_neg h2, if_neg h3, if_neg h4, if_neg h5,
      if_neg h6, if_neg h7, if_pos h8]
    exact escChar_control_step c X h8
  · rw [escChar, if_neg h1, if_neg h2, if_neg h3, if_neg h4, if_neg h5,
      if_neg h6, if_neg h7, if_neg h8]
    rw [List.cons_append, List.nil_append]
    exact parseStrBody_raw h1 h2 h8

theorem parseStrBody_escStr : ∀ (s : List Char) (X : List Char),
    parseStrBody (escStr s ++ '"' :: X) = some (s, X) := by
  intro s
  induction s with
  | nil => intro X; rfl
  | cons c cs ih =>
    intro X
    rw [escStr, List.append_assoc, parseStrBody_escChar, ih X]
    rfl

/-! ### Whitespace and serializer-shape helpers -/

theorem skipWs_cons_ws {c : Char} {X : List Char} (h : isWsChar c = true) :
    skipWs (c :: X) = skipWs X := by
  simp [skipWs, h]

theorem skipWs_cons_not {c : Char} {X : List Char} (h : isWsChar c = false) :
    skipWs (c :: X) = c :: X := by
  simp [skipWs, h]

theorem skipWs_wsRun_append : ∀ {w : List Char}, wsRun w = true →
    ∀ (X : List Char), skipWs (w ++ X) = skipWs X := by
  intro w
  induction w with
  | nil => intro _ X; rfl
  | cons c cs ih =>
    intro h X
    simp only [wsRun, Bool.and_eq_true] at h
    rw [List.cons_append, skipWs_cons_ws h.1, ih h.2 X]

theorem wsRun_spacesL (n : Nat) : wsRun (spacesL n) = true := by
  induction n with
  | zero => rfl
  | succ m ih =>
    simp only [spacesL, List.replicate_succ, wsRun, Bool.and_eq_true]
    exact ⟨rfl, ih⟩

theorem wsRun_nl_spaces (n : Nat) : wsRun ('\n' :: spacesL n) = true := by
  simp only [wsRun, Bool.and_eq_true]
  exact ⟨rfl, wsRun_spacesL n⟩

theorem digit_not_special {c : Char} (h : isDigitChar c = true) :
    isWsChar c = false ∧ ¬(c = ']') ∧ ¬(c = '}') := by
  refine ⟨?_, ?_, ?_⟩
  · simp only [isWsChar, Bool.or_eq_false_iff, beq_eq_false_iff_ne]
    refine ⟨⟨⟨?_, ?_⟩, ?_⟩, ?_⟩ <;> (intro he; subst he; revert h; decide)
  · intro he; subst he; revert h; decide
  · intro he; subst he; revert h; decide

theorem digit_not_signs {c : Char} (h : isDigitChar c = true) :
    ¬(c = '-') ∧ ¬(c = '{') ∧ ¬(c = '[') ∧ ¬(c = '"') ∧ ¬(c = 't') ∧ ¬(c = 'f') ∧ ¬(c = 'n') := by
  refine ⟨?_, ?_, ?_, ?_, ?_, ?_, ?_⟩ <;> (intro he; subst he; revert h; decide)

/-- Every serialized value starts with a character that is not whitespace
and closes no container. -/
theorem serInd_head (lvl : Nat) (v : Json) :
    ∃ c t, serInd lvl v = c :: t ∧ isWsChar c = false ∧ ¬(c = ']') ∧ ¬(c = '}') := by
  match v with
  | Json.null => exact ⟨'n', _, rfl, by decide, by decide, by decide⟩
  | Json.bool true => exact ⟨'t', _, rfl, by decide, by decide, by decide⟩
  | Json.bool false => exact ⟨'f', _, rfl, by decide, by decide, by decide⟩
  | Json.str s => exact ⟨'"', _, rfl, by decide, by decide, by decide⟩
  | Json.arr [] => exact ⟨'[', _, rfl, by decide, by decide, by decide⟩
  | Json.arr (x :: xs) => exact ⟨'[', _, rfl, by decide, by decide, by decide⟩
  | Json.obj [] => exact ⟨'{', _, rfl, by decide, by decide, by decide⟩
  | Json.obj (p :: ps) => exact ⟨'{', _, rfl, by decide, by decide, by decide⟩
  | Json.num (Int.ofNat n) =>
    obtain ⟨c, t, he⟩ : ∃ c t, serNat n = c :: t := by
      match hx : serNat n with
      | [] => exact absurd hx (serNat_ne_nil n)
      | c :: t => exact ⟨c, t, rfl⟩
    have hd : isDigitChar c = true :=
      serNat_all_digits n c (by rw [he]; exact List.mem_cons_self c t)
    obtain ⟨h1, h2, h3⟩ := digit_not_special hd
    exact ⟨c, t, by rw [show serInd lvl (Json.num (Int.ofNat n)) = serNat n from rfl, he], h1, h2, h3⟩
  | Json.num (Int.negSucc n) =>
    exact ⟨'-', serNat (n + 1), rfl, by decide, by decide, by decide⟩

theorem serInd_ne_nil (lvl : Nat) (v : Json) : serInd lvl v ≠ [] := by
  obtain ⟨c, t, he, _⟩ := serInd_head lvl v
  rw [he]
  simp

/-- `skipWs` does not move past the start of a serialized value. -/
theorem skipWs_serInd (lvl : Nat) (v : Json) (X : List Char) :
    skipWs (serInd lvl v ++ X) = serInd lvl v ++ X := by
  obtain ⟨c, t, he, hws, _⟩ := serInd_head lvl v
  rw [he, List.cons_append, skipWs_cons_not hws]

theorem delimOk_of_head {c : Char} (t : List Char)
    (h1 : isDigitChar c = false) (h2 : numCont c = false) : delimOk (c :: t) = true := by
  simp [delimOk, h1, h2]

/-- The remainder that follows a serialized array element (its separator
tail, closing whitespace, bracket and outer rest) cannot extend a numeral. -/
theorem delimOk_arrTail (k : Nat) (xs : List Json) (w rest : List Char)
    (hw : wsRun w = true) :
    delimOk (serArrTail k xs ++ (w ++ ']' :: rest)) = true := by
  match xs with
  | _ :: _ => exact delimOk_of_head _ (by decide) (by decide)
  | [] =>
    match w with
    | [] => exact delimOk_of_head _ (by decide) (by decide)
    | c :: t =>
      simp only [wsRun, Bool.and_eq_true] at hw
      refine delimOk_of_head _ ?_ ?_
      · revert hw
        simp only [isWsChar, Bool.or_eq_true, beq_iff_eq, isDigitChar]
        rintro ⟨((rfl | rfl) | rfl) | rfl, -⟩ <;> decide
      · revert hw
        simp only [isWsChar, Bool.or_eq_true, beq_iff_eq, numCont]
        rintro ⟨((rfl | rfl) | rfl) | rfl, -⟩ <;> decide

/-- The object analogue of `delimOk_arrTail`. -/
theorem delimOk_objTail (k : Nat) (fs : List (List Char × Json)) (w rest : List Char)
    (hw : wsRun w = true) :
    delimOk (serObjTail k fs ++ (w ++ '}' :: rest)) = true := by
  match fs with
  | _ :: _ => exact delimOk_of_head _ (by decide) (by decide)
  | [] =>
    match w with
    | [] => exact delimOk_of_head _ (by decide) (by decide)
    | c :: t =>
      simp only [wsRun, Bool.and_eq_true] at hw
      refine delimOk_of_head _ ?_ ?_
      · revert hw
        simp only [isWsChar, Bool.or_eq_true, beq_iff_eq, isDigitChar]
        rintro ⟨((rfl | rfl) | rfl) | rfl, -⟩ <;> decide
      · revert hw
        simp only [isWsChar, Bool.or_eq_true, beq_iff_eq, numCont]
        rintro ⟨((rfl | rfl) | rfl) | rfl, -⟩ <;> decide

/-- A serialized number routes through the catch-all branch of
`parseValue`. -/
theorem parseValue_num (i : Int) (f : Nat) (rest : List Char) (hr : delimOk rest = true) :
    parseValue (f + 1) (serInt i ++ rest) = some (Json.num i, rest) := by
  match i with
  | Int.ofNat n =>
    obtain ⟨c, t, he⟩ : ∃ c t, serNat n = c :: t := by
      match hx : serNat n with
      | [] => exact absurd hx (serNat_ne_nil n)
      | c :: t => exact ⟨c, t, rfl⟩
    have hd : isDigitChar c = true :=
      serNat_all_digits n c (by rw [he]; exact List.mem_cons_self c t)
    obtain ⟨hm, hob, hbk, hq, ht, hf2, hn⟩ := digit_not_signs hd
    have harg : serInt (Int.ofNat n) ++ rest = c :: (t ++ rest) := by
      rw [show serInt (Int.ofNat n) = serNat n from rfl, he, List.cons_append]
    rw [harg, parseValue.eq_def]
    have hnum := parseNum_serInt (i := Int.ofNat n) hr
    rw [harg] at hnum
    simp [hob, hbk, hq, ht, hf2, hn, hd, hnum]
  | Int.negSucc n =>
    have harg : serInt (Int.negSucc n) ++ rest = '-' :: (serNat (n + 1) ++ rest) := rfl
    rw [harg, parseValue.eq_def]
    have hnum := parseNum_serInt (i := Int.negSucc n) hr
    rw [harg] at hnum
    simp [hnum]

/-! ### Dict-insertion lemmas -/

theorem setKey_fresh : ∀ (acc : List (List Char × Json)) (k : List Char) (v : Json),
    (acc.any (fun p => p.1 == k)) = false → setKey acc k v = acc ++ [(k, v)] := by
  intro acc k v h
  induction acc with
  | nil => rfl
  | cons q qs ih =>
    simp only [List.any_cons, Bool.or_eq_false_iff] at h
    have hq : ¬(q.1 = k) := by
      have h1 := h.1
      rwa [beq_eq_false_iff_ne] at h1
    simp only [setKey, if_neg hq, List.cons_append]
    rw [ih h.2]

theorem nodup_split : ∀ (l1 : List (List Char × Json)) (p : List Char × Json)
    (l2 : List (List Char × Json)), nodupKeys (l1 ++ p :: l2) = true →
    (l1.any (fun q => q.1 == p.1)) = false
  | [], _, _, _ => rfl
  | q :: qs, p, l2, h => by
    rw [List.cons_append, nodupKeys] at h
    simp only [Bool.and_eq_true, Bool.not_eq_true'] at h
    obtain ⟨h1, h2⟩ := h
    have hq : (q.1 == p.1) = false := by
      rw [beq_eq_false_iff_ne]
      intro he
      rw [List.any_eq_false] at h1
      have hcontra := h1 p (by simp)
      simp only [beq_iff_eq] at hcontra
      exact hcontra he.symm
    simp only [List.any_cons, hq, Bool.false_or]
    exact nodup_split qs p l2 h2

/-! ### One-step unfoldings of the parser at successor fuel (definitional) -/

theorem parseArrBody_step (f : Nat) (cs : List Char) :
    parseArrBody (f + 1) cs
      = (match cs with
         | [] => none
         | c :: rest =>
           if c = ']' then some (Json.arr [], rest)
           else
             match parseValue f (c :: rest) with
             | none => none
             | some (v, r) => parseArrTail f [v] r) := rfl

theorem parseArrTail_step (f : Nat) (acc : List Json) (cs : List Char) :
    parseArrTail (f + 1) acc cs
      = (match skipWs cs with
         | ']' :: rest => some (Json.arr acc, rest)
         | ',' :: rest =>
           (match parseValue f (skipWs rest) with
            | none => none
            | some (v, r) => parseArrTail f (acc ++ [v]) r)
         | _ => none) := rfl

theorem parseObjTail_step (f : Nat) (acc : List (List Char × Json)) (cs : List Char) :
    parseObjTail (f + 1) acc cs
      = (match skipWs cs with
         | '}' :: rest => some (Json.obj acc, rest)
         | ',' :: rest =>
           (match skipWs rest with
            | '"' :: r1 =>
              (match parseStrBody r1 with
               | none => none
               | some (k, r2) =>
                 match skipWs r2 with
                 | ':' :: r3 =>
                   (match parseValue f (skipWs r3) with
                    | none => none
                    | some (v, r4) => parseObjTail f (setKey acc k v) r4)
                 | _ => none)
            | _ => none)
         | _ => none) := rfl

/-! ### The serializer–parser round trip -/

mutual
theorem rt_value : ∀ (v : Json) (lvl fuel : Nat) (rest : List Char),
    jwf v = true → (serInd lvl v).length < fuel → delimOk rest = true →
    parseValue fuel (serInd lvl v ++ rest) = some (v, rest)
  | _, _, 0, _, _, hf, _ => absurd hf (Nat.not_lt_zero _)
  | Json.null, lvl, fuel + 1, rest, _, _, _ => rfl
  | Json.bool true, lvl, fuel + 1, rest, _, _, _ => rfl
  | Json.bool false, lvl, fuel + 1, rest, _, _, _ => rfl
  | Json.num i, lvl, fuel + 1, rest, _, _, hr => parseValue_num i fuel rest hr
  | Json.str s, lvl, fuel + 1, rest, _, _, _ => by
    have harg : serInd lvl (Json.str s) ++ rest = '"' :: (escStr s ++ '"' :: rest) := by
      simp [serInd]
    rw [harg]
    have hstep : parseValue (fuel + 1) ('"' :: (escStr s ++ '"' :: rest))
        = (parseStrBody (escStr s ++ '"' :: rest)).map (fun p => (Json.str p.1, p.2)) := rfl
    rw [hstep, parseStrBody_escStr]
    rfl
  | Json.arr [], lvl, fuel + 1, rest, _, hf, _ => by
    obtain ⟨f, rfl⟩ : ∃ f, fuel = f + 1 := by
      have h2 : (serInd lvl (Json.arr [])).length = 2 := rfl
      exact ⟨fuel - 1, by omega⟩
    rfl
  | Json.arr (x :: xs), lvl, fuel + 1, rest, hwf, hf, hr => by
    have hxlen : 0 < (serInd (lvl + 1) x).length :=
      List.length_pos.mpr (serInd_ne_nil (lvl + 1) x)
    have hlen : (serInd lvl (Json.arr (x :: xs))).length
        = 6 + 4 * lvl + (serInd (lvl + 1) x).length + (serArrTail (lvl + 1) xs).length := by
      simp [serInd, spacesL]
      omega
    obtain ⟨f, rfl⟩ : ∃ f, fuel = f + 1 := ⟨fuel - 1, by omega⟩
    simp only [jwf, jwfList, Bool.and_eq_true] at hwf
    have harg : serInd lvl (Json.arr (x :: xs)) ++ rest
        = '[' :: ('\n' :: (spacesL (2 * (lvl + 1)) ++ (serInd (lvl + 1) x
          ++ (serArrTail (lvl + 1) xs ++ (('\n' :: spacesL (2 * lvl)) ++ (']' :: rest)))))) := by
      simp [serInd, List.append_assoc]
    rw [harg]
    have hstep : parseValue (f + 1 + 1) ('[' :: ('\n' :: (spacesL (2 * (lvl + 1))
          ++ (serInd (lvl + 1) x ++ (serArrTail (lvl + 1) xs
            ++ (('\n' :: spacesL (2 * lvl)) ++ (']' :: rest)))))))
        = parseArrBody (f + 1) (skipWs ('\n' :: (spacesL (2 * (lvl + 1))
          ++ (serInd (lvl + 1) x ++ (serArrTail (lvl + 1) xs
            ++ (('\n' :: spacesL (2 * lvl)) ++ (']' :: rest))))))) := rfl
    rw [hstep, skipWs_cons_ws (by decide), skipWs_wsRun_append (wsRun_spacesL _),
      skipWs_serInd]
    obtain ⟨c, t, he, hcws, hcbr, hcobr⟩ := serInd_head (lvl + 1) x
    have hval := rt_value x (lvl + 1) f
      (serArrTail (lvl + 1) xs ++ (('\n' :: spacesL (2 * lvl)) ++ (']' :: rest)))
      hwf.1 (by omega) (delimOk_arrTail _ xs _ rest (wsRun_nl_spaces _))
    have htail := rt_arrTail xs (lvl + 1) f [x] ('\n' :: spacesL (2 * lvl)) rest
      hwf.2 (wsRun_nl_spaces _) hr (by simp [spacesL]; omega)
    rw [he, List.cons_append] at hval
    rw [he, List.cons_append, parseArrBody_step]
    simp only [if_neg hcbr, hval, htail]
    simp
  | Json.obj [], lvl, fuel + 1, rest, _, hf, _ => by
    obtain ⟨f, rfl⟩ : ∃ f, fuel = f + 1 := by
      have h2 : (serInd lvl (Json.obj [])).length = 2 := rfl
      exact ⟨fuel - 1, by omega⟩
    rfl
  | Json.obj (p :: ps), lvl, fuel + 1, rest, hwf, hf, hr => by
    have hvlen : 0 < (serInd (lvl + 1) p.2).length :=
      List.length_pos.mpr (serInd_ne_nil (lvl + 1) p.2)
    have hlen : (serInd lvl (Json.obj (p :: ps))).length
        = 10 + 4 * lvl + (escStr p.1).length + (serInd (lvl + 1) p.2).length
          + (serObjTail (lvl + 1) ps).length := by
      simp [serInd, spacesL]
      omega
    obtain ⟨f, rfl⟩ : ∃ f, fuel = f + 1 := ⟨fuel - 1, by omega⟩
    simp only [jwf, jwfObj, Bool.and_eq_true] at hwf
    have harg : serInd lvl (Json.obj (p :: ps)) ++ rest
        = '{' :: ('\n' :: (spacesL (2 * (lvl + 1)) ++ ('"' :: (escStr p.1
          ++ '"' :: (':' :: (' ' :: (serInd (lvl + 1) p.2
          ++ (serObjTail (lvl + 1) ps ++ (('\n' :: spacesL (2 * lvl)) ++ ('}' :: rest)))))))))) := by
      simp [serInd, List.append_assoc]
    rw [harg]
    have hstep : parseValue (f + 1 + 1) ('{' :: ('\n' :: (spacesL (2 * (lvl + 1))
          ++ ('"' :: (escStr p.1 ++ '"' :: (':' :: (' ' :: (serInd (lvl + 1) p.2
          ++ (serObjTail (lvl + 1) ps ++ (('\n' :: spacesL (2 * lvl)) ++ ('}' :: rest)))))))))))
        = parseObjBody (f + 1) (skipWs ('\n' :: (spacesL (2 * (lvl + 1))
          ++ ('"' :: (escStr p.1 ++ '"' :: (':' :: (' ' :: (serInd (lvl + 1) p.2
          ++ (serObjTail (lvl + 1) ps ++ (('\n' :: spacesL (2 * lvl)) ++ ('}' :: rest))))))))))) := rfl
    rw [hstep, skipWs_cons_ws (by decide), skipWs_wsRun_append (wsRun_spacesL _),
      skipWs_cons_not (by decide)]
    have hbody : parseObjBody (f + 1) ('"' :: (escStr p.1 ++ '"' :: (':' :: (' '
          :: (serInd (lvl + 1) p.2 ++ (serObjTail (lvl + 1) ps
            ++ (('\n' :: spacesL (2 * lvl)) ++ ('}' :: rest))))))))
        = (match parseStrBody (escStr p.1 ++ '"' :: (':' :: (' ' :: (serInd (lvl + 1) p.2
            ++ (serObjTail (lvl + 1) ps ++ (('\n' :: spacesL (2 * lvl)) ++ ('}' :: rest))))))) with
          | none => none
          | some (k, r1) =>
            match skipWs r1 with
            | ':' :: r2 =>
              (match parseValue f (skipWs r2) with
               | none => none
               | some (v, r3) => parseObjTail f (setKey [] k v) r3)
            | _ => none) := rfl
    have hsk1 : skipWs (':' :: (' ' :: (serInd (lvl + 1) p.2 ++ (serObjTail (lvl + 1) ps
          ++ (('\n' :: spacesL (2 * lvl)) ++ ('}' :: rest))))))
        = ':' :: (' ' :: (serInd (lvl + 1) p.2 ++ (serObjTail (lvl + 1) ps
          ++ (('\n' :: spacesL (2 * lvl)) ++ ('}' :: rest))))) := skipWs_cons_not (by decide)
    have hsk2 : skipWs (' ' :: (serInd (lvl + 1) p.2 ++ (serObjTail (lvl + 1) ps
          ++ (('\n' :: spacesL (2 * lvl)) ++ ('}' :: rest)))))
        = serInd (lvl + 1) p.2 ++ (serObjTail (lvl + 1) ps
          ++ (('\n' :: spacesL (2 * lvl)) ++ ('}' :: rest))) := by
      rw [skipWs_cons_ws (by decide), skipWs_serInd]
    have hval := rt_value p.2 (lvl + 1) f
      (serObjTail (lvl + 1) ps ++ (('\n' :: spacesL (2 * lvl)) ++ ('}' :: rest)))
      hwf.2.1 (by omega) (delimOk_objTail _ ps _ rest (wsRun_nl_spaces _))
    have htail := rt_objTail ps (lvl + 1) f [(p.1, p.2)] ('\n' :: spacesL (2 * lvl)) rest
      hwf.2.2 (by simpa using hwf.1) (wsRun_nl_spaces _) hr (by simp [spacesL]; omega)
    rw [hbody, parseStrBody_escStr]
    simp only [hsk1, hsk2, hval, show setKey ([] : List (List Char × Json)) p.1 p.2
      = [(p.1, p.2)] from rfl, htail]
    simp

theorem rt_arrTail : ∀ (xs : List Json) (k fuel : Nat) (acc : List Json)
    (w rest : List Char), jwfList xs = true → wsRun w = true → delimOk rest = true →
    (serArrTail k xs).length + w.length < fuel →
    parseArrTail fuel acc (serArrTail k xs ++ (w ++ ']' :: rest))
      = some (Json.arr (acc ++ xs), rest)
  | _, _, 0, _, _, _, _, _, _, hf => absurd hf (Nat.not_lt_zero _)
  | [], k, fuel + 1, acc, w, rest, _, hw, _, _ => by
    rw [show serArrTail k [] ++ (w ++ ']' :: rest) = w ++ ']' :: rest from rfl,
      parseArrTail_step, skipWs_wsRun_append hw, skipWs_cons_not (by decide)]
    simp
  | x :: xs, k, fuel + 1, acc, w, rest, hwfl, hw, hr, hf => by
    have hxlen : 0 < (serInd k x).length := List.length_pos.mpr (serInd_ne_nil k x)
    have hlen : (serArrTail k (x :: xs)).length
        = 2 + 2 * k + (serInd k x).length + (serArrTail k xs).length := by
      simp [serArrTail, spacesL]
      omega
    simp only [jwfList, Bool.and_eq_true] at hwfl
    have harg : serArrTail k (x :: xs) ++ (w ++ ']' :: rest)
        = ',' :: ('\n' :: (spacesL (2 * k) ++ (serInd k x
          ++ (serArrTail k xs ++ (w ++ ']' :: rest))))) := by
      simp [serArrTail, List.append_assoc]
    have hsk1 : skipWs (',' :: ('\n' :: (spacesL (2 * k) ++ (serInd k x
          ++ (serArrTail k xs ++ (w ++ ']' :: rest))))))
        = ',' :: ('\n' :: (spacesL (2 * k) ++ (serInd k x
          ++ (serArrTail k xs ++ (w ++ ']' :: rest))))) := skipWs_cons_not (by decide)
    have hsk2 : skipWs ('\n' :: (spacesL (2 * k) ++ (serInd k x
          ++ (serArrTail k xs ++ (w ++ ']' :: rest)))))
        = serInd k x ++ (serArrTail k xs ++ (w ++ ']' :: rest)) := by
      rw [skipWs_cons_ws (by decide), skipWs_wsRun_append (wsRun_spacesL _), skipWs_serInd]
    have hval := rt_value x k fuel (serArrTail k xs ++ (w ++ ']' :: rest))
      hwfl.1 (by omega) (delimOk_arrTail _ xs _ rest hw)
    have htail := rt_arrTail xs k fuel (acc ++ [x]) w rest hwfl.2 hw hr (by omega)
    rw [harg, parseArrTail_step]
    simp only [hsk1, hsk2, hval, htail]
    rw [← List.append_cons]

theorem rt_objTail : ∀ (fs : List (List Char × Json)) (k fuel : Nat)
    (acc : List (List Char × Json)) (w rest : List Char),
    jwfObj fs = true → nodupKeys (acc ++ fs) = true → wsRun w = true →
    delimOk rest = true → (serObjTail k fs).length + w.length < fuel →
    parseObjTail fuel acc (serObjTail k fs ++ (w ++ '}' :: rest))
      = some (Json.obj (acc ++ fs), rest)
  | _, _, 0, _, _, _, _, _, _, _, hf => absurd hf (Nat.not_lt_zero _)
  | [], k, fuel + 1, acc, w, rest, _, _, hw, _, _ => by
    rw [show serObjTail k [] ++ (w ++ '}' :: rest) = w ++ '}' :: rest from rfl,
      parseObjTail_step, skipWs_wsRun_append hw, skipWs_cons_not (by decide)]
    simp
  | q :: qs, k, fuel + 1, acc, w, rest, hwfo, hnd, hw, hr, hf => by
    have hvlen : 0 < (serInd k q.2).length := List.length_pos.mpr (serInd_ne_nil k q.2)
    have hlen : (serObjTail k (q :: qs)).length
        = 6 + 2 * k + (escStr q.1).length + (serInd k q.2).length
          + (serObjTail k qs).length := by
      simp [serObjTail, spacesL]
      omega
    simp only [jwfObj, Bool.and_eq_true] at hwfo
    have harg : serObjTail k (q :: qs) ++ (w ++ '}' :: rest)
        = ',' :: ('\n' :: (spacesL (2 * k) ++ ('"' :: (escStr q.1
          ++ '"' :: (':' :: (' ' :: (serInd k q.2
          ++ (serObjTail k qs ++ (w ++ '}' :: rest))))))))) := by
      simp [serObjTail, List.append_assoc]
    have hsk1 : skipWs (',' :: ('\n' :: (spacesL (2 * k) ++ ('"' :: (escStr q.1
          ++ '"' :: (':' :: (' ' :: (serInd k q.2
          ++ (serObjTail k qs ++ (w ++ '}' :: rest))))))))))
        = ',' :: ('\n' :: (spacesL (2 * k) ++ ('"' :: (escStr q.1
          ++ '"' :: (':' :: (' ' :: (serInd k q.2
          ++ (serObjTail k qs ++ (w ++ '}' :: rest)))))))))
        := skipWs_cons_not (by decide)
    have hsk2 : skipWs ('\n' :: (spacesL (2 * k) ++ ('"' :: (escStr q.1
          ++ '"' :: (':' :: (' ' :: (serInd k q.2
          ++ (serObjTail k qs ++ (w ++ '}' :: rest)))))))))
        = '"' :: (escStr q.1 ++ '"' :: (':' :: (' ' :: (serInd k q.2
          ++ (serObjTail k qs ++ (w ++ '}' :: rest)))))) := by
      rw [skipWs_cons_ws (by decide), skipWs_wsRun_append (wsRun_spacesL _),
        skipWs_cons_not (by decide)]
    have hsk3 : skipWs (':' :: (' ' :: (serInd k q.2
          ++ (serObjTail k qs ++ (w ++ '}' :: rest)))))
        = ':' :: (' ' :: (serInd k q.2 ++ (serObjTail k qs ++ (w ++ '}' :: rest))))
        := skipWs_cons_not (by decide)
    have hsk4 : skipWs (' ' :: (serInd k q.2 ++ (serObjTail k qs ++ (w ++ '}' :: rest))))
        = serInd k q.2 ++ (serObjTail k qs ++ (w ++ '}' :: rest)) := by
      rw [skipWs_cons_ws (by decide), skipWs_serInd]
    have hval := rt_value q.2 k fuel (serObjTail k qs ++ (w ++ '}' :: rest))
      hwfo.1 (by omega) (delimOk_objTail _ qs _ rest hw)
    have hfresh : (acc.any (fun p => p.1 == q.1)) = false := nodup_split acc q qs hnd
    have hnd2 : nodupKeys ((acc ++ [(q.1, q.2)]) ++ qs) = true := by
      rw [List.append_assoc, List.singleton_append]
      exact hnd
    have htail := rt_objTail qs k fuel (acc ++ [(q.1, q.2)]) w rest hwfo.2 hnd2 hw hr
      (by omega)
    rw [harg, parseObjTail_step]
    simp only [hsk1, hsk2, parseStrBody_escStr, hsk3, hsk4, hval,
      setKey_fresh acc q.1 q.2 hfresh, htail]
    rw [List.append_assoc, List.singleton_append]
end

/-- Top-level round trip: re-parsing a `json.dumps` output recovers the
value, for any well-formed value. -/
theorem jsonLoads_dumps {v : Json} (h : jwf v = true) : jsonLoads (jsonDumps v) = some v := by
  have hskip : skipWs (serInd 0 v) = serInd 0 v := by
    have := skipWs_serInd 0 v []
    rwa [List.append_nil] at this
  have hrt := rt_value v 0 (2 * (serInd 0 v).length + 2) [] h (by omega) rfl
  rw [List.append_nil] at hrt
  rw [jsonLoads, jsonDumps, hskip, hrt]
  rfl

/-! ### Parser outputs are well-formed -/

theorem setKey_any_iff : ∀ (qs : List (List Char × Json)) (k : List Char) (v : Json)
    (a : List Char), ((setKey qs k v).any (fun p => p.1 == a)) = true
      ↔ (qs.any (fun p => p.1 == a)) = true ∨ k = a := by
  intro qs k v a
  induction qs with
  | nil =>
    simp only [setKey, List.any_cons, List.any_nil, Bool.or_false, beq_iff_eq]
    constructor
    · intro h; exact Or.inr h
    · rintro (h | h)
      · simp at h
      · exact h
  | cons q qs ih =>
    by_cases hk : q.1 = k
    · simp only [setKey, if_pos hk, List.any_cons, Bool.or_eq_true, beq_iff_eq]
      constructor
      · rintro (h | h)
        · exact Or.inr h
        · exact Or.inl (Or.inr h)
      · rintro ((h | h) | h)
        · exact Or.inl (hk ▸ h)
        · exact Or.inr h
        · exact Or.inl h
    · simp only [setKey, if_neg hk, List.any_cons, Bool.or_eq_true, ih]
      constructor
      · rintro (h | (h | h))
        · exact Or.inl (Or.inl h)
        · exact Or.inl (Or.inr h)
        · exact Or.inr h
      · rintro ((h | h) | h)
        · exact Or.inl h
        · exact Or.inr (Or.inl h)
        · exact Or.inr (Or.inr h)

theorem setKey_nodup : ∀ (qs : List (List Char × Json)) (k : List Char) (v : Json),
    nodupKeys qs = true → nodupKeys (setKey qs k v) = true := by
  intro qs k v h
  induction qs with
  | nil => rfl
  | cons q qs ih =>
    simp only [nodupKeys, Bool.and_eq_true, Bool.not_eq_true'] at h
    by_cases hk : q.1 = k
    · simp only [setKey, if_pos hk, nodupKeys, Bool.and_eq_true, Bool.not_eq_true']
      exact ⟨by rw [← hk]; exact h.1, h.2⟩
    · simp only [setKey, if_neg hk, nodupKeys, Bool.and_eq_true, Bool.not_eq_true']
      refine ⟨?_, ih h.2⟩
      by_cases hany : ((setKey qs k v).any (fun p => p.1 == q.1)) = true
      · rcases (setKey_any_iff qs k v q.1).mp hany with h1 | h1
        · rw [h.1] at h1
          simp at h1
        · exact absurd h1.symm hk
      · exact Bool.eq_false_iff.mpr hany

theorem jwfObj_setKey : ∀ (qs : List (List Char × Json)) (k : List Char) (v : Json),
    jwfObj qs = true → jwf v = true → jwfObj (setKey qs k v) = true := by
  intro qs k v h hv
  induction qs with
  | nil => simp [setKey, jwfObj, hv]
  | cons q qs ih =>
    simp only [jwfObj, Bool.and_eq_true] at h
    by_cases hk : q.1 = k
    · simp only [setKey, if_pos hk, jwfObj, Bool.and_eq_true]
      exact ⟨hv, h.2⟩
    · simp only [setKey, if_neg hk, jwfObj, Bool.and_eq_true]
      exact ⟨h.1, ih h.2⟩

theorem jwfList_append : ∀ (a b : List Json),
    jwfList (a ++ b) = (jwfList a && jwfList b) := by
  intro a b
  induction a with
  | nil => simp [jwfList]
  | cons x xs ih => simp [jwfList, ih, Bool.and_assoc]

theorem parseNum_shape {cs : List Char} {v : Json} {r : List Char}
    (h : parseNum cs = some (v, r)) : ∃ i, v = Json.num i := by
  rw [parseNum] at h
  match hx : parseIntLex cs with
  | none => rw [hx] at h; simp at h
  | some (i, rest) =>
    rw [hx] at h
    match rest with
    | [] =>
      simp only [Option.some.injEq, Prod.mk.injEq] at h
      exact ⟨i, h.1.symm⟩
    | c :: t =>
      by_cases hc : numCont c = true
      · simp [hc] at h
      · simp only [Bool.not_eq_true] at hc
        simp only [hc, Bool.false_eq_true, if_false, Option.some.injEq, Prod.mk.injEq] at h
        exact ⟨i, h.1.symm⟩

theorem parseValue_step (f : Nat) (cs : List Char) :
    parseValue (f + 1) cs
      = (match cs with
         | '{' :: rest => parseObjBody f (skipWs rest)
         | '[' :: rest => parseArrBody f (skipWs rest)
         | '"' :: rest => (parseStrBody rest).map (fun p => (Json.str p.1, p.2))
         | 't' :: 'r' :: 'u' :: 'e' :: rest => some (Json.bool true, rest)
         | 'f' :: 'a' :: 'l' :: 's' :: 'e' :: rest => some (Json.bool false, rest)
         | 'n' :: 'u' :: 'l' :: 'l' :: rest => some (Json.null, rest)
         | c :: rest => if c = '-' || isDigitChar c then parseNum (c :: rest) else none
         | [] => none) := rfl

theorem parseObjBody_step (f : Nat) (cs : List Char) :
    parseObjBody (f + 1) cs
      = (match cs with
         | '}' :: rest => some (Json.obj [], rest)
         | '"' :: rest =>
           (match parseStrBody rest with
            | none => none
            | some (k, r1) =>
              match skipWs r1 with
              | ':' :: r2 =>
                (match parseValue f (skipWs r2) with
                 | none => none
                 | some (v, r3) => parseObjTail f (setKey [] k v) r3)
              | _ => none)
         | _ => none) := rfl

mutual
theorem parseValue_wf : ∀ (fuel : Nat) (cs : List Char) (v : Json) (r : List Char),
    parseValue fuel cs = some (v, r) → jwf v = true
  | 0, _, _, _, h => by simp [parseValue] at h
  | fuel + 1, cs, v, r, h => by
    rw [parseValue_step] at h
    split at h
    all_goals first
      | exact parseObjBody_wf fuel _ v r h
      | exact parseArrBody_wf fuel _ v r h
      | (rw [Option.map_eq_some'] at h
         obtain ⟨p, hp, he⟩ := h
         obtain ⟨rfl, rfl⟩ : Json.str p.1 = v ∧ p.2 = r := by
           simpa using he
         rfl)
      | (simp only [Option.some.injEq, Prod.mk.injEq] at h
         rw [← h.1]
         rfl)
      | (obtain ⟨-, h⟩ := h
         obtain ⟨i, hi⟩ := parseNum_shape h
         rw [hi]
         rfl)
      | (split at h
         · obtain ⟨i, hi⟩ := parseNum_shape h
           rw [hi]
           rfl
         · exact Option.noConfusion h)
      | exact Option.noConfusion h
      | (obtain ⟨-, h⟩ := h
         exact Option.noConfusion h)
  termination_by fuel _ _ _ => fuel

theorem parseArrBody_wf : ∀ (fuel : Nat) (cs : List Char) (v : Json) (r : List Char),
    parseArrBody fuel cs = some (v, r) → jwf v = true
  | 0, _, _, _, h => by simp [parseArrBody] at h
  | fuel + 1, cs, v, r, h => by
    rw [parseArrBody_step] at h
    split at h
    · simp at h
    · rename_i c rest
      split at h
      · simp only [Option.some.injEq, Prod.mk.injEq] at h
        rw [← h.1]
        rfl
      · match hx : parseValue fuel (c :: rest) with
        | none =>
          rw [hx] at h
          simp at h
        | some (v1, r1) =>
          rw [hx] at h
          have hv1 := parseValue_wf fuel _ v1 r1 hx
          refine parseArrTail_wf fuel [v1] r1 v r h ?_
          simp [jwfList, hv1]
  termination_by fuel _ _ _ => fuel

theorem parseArrTail_wf : ∀ (fuel : Nat) (acc : List Json) (cs : List Char)
    (v : Json) (r : List Char),
    parseArrTail fuel acc cs = some (v, r) → jwfList acc = true → jwf v = true
  | 0, _, _, _, _, h, _ => by simp [parseArrTail] at h
  | fuel + 1, acc, cs, v, r, h, hacc => by
    rw [parseArrTail_step] at h
    split at h
    · simp only [Option.some.injEq, Prod.mk.injEq] at h
      rw [← h.1]
      exact hacc
    · rename_i rest heq
      match hx : parseValue fuel (skipWs rest) with
      | none =>
        rw [hx] at h
        simp at h
      | some (v1, r1) =>
        rw [hx] at h
        have hv1 := parseValue_wf fuel _ v1 r1 hx
        refine parseArrTail_wf fuel (acc ++ [v1]) r1 v r h ?_
        rw [jwfList_append]
        simp [hacc, jwfList, hv1]
    · simp at h
  termination_by fuel _ _ _ _ => fuel

theorem parseObjBody_wf : ∀ (fuel : Nat) (cs : List Char) (v : Json) (r : List Char),
    parseObjBody fuel cs = some (v, r) → jwf v = true
  | 0, _, _, _, h => by simp [parseObjBody] at h
  | fuel + 1, cs, v, r, h => by
    rw [parseObjBody_step] at h
    split at h
    · simp only [Option.some.injEq, Prod.mk.injEq] at h
      rw [← h.1]
      rfl
    · rename_i rest
      split at h
      · exact Option.noConfusion h
      · rename_i k r1 heqS
        split at h
        · split at h
          · exact Option.noConfusion h
          · rename_i v1 r3 heqV
            have hv1 := parseValue_wf fuel _ v1 r3 heqV
            refine parseObjTail_wf fuel (setKey [] k v1) r3 v r h ?_ ?_
            · rfl
            · simp [jwfObj, hv1]
        · exact Option.noConfusion h
    · simp at h
  termination_by fuel _ _ _ => fuel

theorem parseObjTail_wf : ∀ (fuel : Nat) (acc : List (List Char × Json)) (cs : List Char)
    (v : Json) (r : List Char),
    parseObjTail fuel acc cs = some (v, r) → nodupKeys acc = true → jwfObj acc = true →
    jwf v = true
  | 0, _, _, _, _, h, _, _ => by simp [parseObjTail] at h
  | fuel + 1, acc, cs, v, r, h, hnd, hwo => by
    rw [parseObjTail_step] at h
    split at h
    · simp only [Option.some.injEq, Prod.mk.injEq] at h
      rw [← h.1]
      simp [jwf, hnd, hwo]
    · split at h
      · split at h
        · exact Option.noConfusion h
        · rename_i k r2 heqS
          split at h
          · split at h
            · exact Option.noConfusion h
            · rename_i v1 r4 heqV
              have hv1 := parseValue_wf fuel _ v1 r4 heqV
              exact parseObjTail_wf fuel (setKey acc k v1) r4 v r h
                (setKey_nodup acc k v1 hnd) (jwfObj_setKey acc k v1 hwo hv1)
          · exact Option.noConfusion h
      · exact Option.noConfusion h
    · simp at h
  termination_by fuel _ _ _ _ => fuel
end

/-- Everything the modelled `json.loads` accepts is well-formed. -/
theorem jsonLoads_wf {cs : List Char} {v : Json} (h : jsonLoads cs = some v) :
    jwf v = true := by
  rw [jsonLoads] at h
  split at h
  · simp at h
  · rename_i v1 r heq
    split at h
    · simp only [Option.some.injEq] at h
      rw [← h]
      exact parseValue_wf _ _ _ _ heq
    · simp at h

/-! ### The removal loop: exactness, stability, preservation -/

theorem hasSubstr_key_self : hasSubstr keyChars keyChars = true := by decide

theorem delKeyFirst_noKey : ∀ fs, nodupKeys fs = true →
    ((delKeyFirst fs).any (fun p => p.1 == keyChars)) = false
  | [], _ => rfl
  | p :: ps, h => by
    simp only [nodupKeys, Bool.and_eq_true, Bool.not_eq_true'] at h
    by_cases hp : p.1 = keyChars
    · rw [delKeyFirst, if_pos hp, ← hp]
      exact h.1
    · rw [delKeyFirst, if_neg hp]
      simp only [List.any_cons, Bool.or_eq_false_iff]
      refine ⟨by rwa [beq_eq_false_iff_ne], delKeyFirst_noKey ps h.2⟩

theorem delKeyFirst_any_le : ∀ fs (a : List Char),
    ((delKeyFirst fs).any (fun p => p.1 == a)) = true →
    (fs.any (fun p => p.1 == a)) = true
  | [], _, h => h
  | p :: ps, a, h => by
    by_cases hp : p.1 = keyChars
    · rw [delKeyFirst, if_pos hp] at h
      simp only [List.any_cons, Bool.or_eq_true]
      exact Or.inr h
    · rw [delKeyFirst, if_neg hp] at h
      simp only [List.any_cons, Bool.or_eq_true] at h ⊢
      rcases h with h | h
      · exact Or.inl h
      · exact Or.inr (delKeyFirst_any_le ps a h)

theorem delKeyFirst_nodup : ∀ fs, nodupKeys fs = true → nodupKeys (delKeyFirst fs) = true
  | [], _ => rfl
  | p :: ps, h => by
    simp only [nodupKeys, Bool.and_eq_true, Bool.not_eq_true'] at h
    by_cases hp : p.1 = keyChars
    · rw [delKeyFirst, if_pos hp]
      exact h.2
    · rw [delKeyFirst, if_neg hp]
      simp only [nodupKeys, Bool.and_eq_true, Bool.not_eq_true']
      refine ⟨?_, delKeyFirst_nodup ps h.2⟩
      by_cases hany : ((delKeyFirst ps).any (fun q => q.1 == p.1)) = true
      · have := delKeyFirst_any_le ps p.1 hany
        rw [h.1] at this
        simp at this
      · exact Bool.eq_false_iff.mpr hany

theorem delKeyFirst_jwfObj : ∀ fs, jwfObj fs = true → jwfObj (delKeyFirst fs) = true
  | [], _ => rfl
  | p :: ps, h => by
    simp only [jwfObj, Bool.and_eq_true] at h
    by_cases hp : p.1 = keyChars
    · rw [delKeyFirst, if_pos hp]
      exact h.2
    · rw [delKeyFirst, if_neg hp]
      simp only [jwfObj, Bool.and_eq_true]
      exact ⟨h.1, delKeyFirst_jwfObj ps h.2⟩

theorem filter_noKey_id : ∀ fs : List (List Char × Json),
    (fs.any (fun p => p.1 == keyChars)) = false →
    fs.filter (fun p => !(p.1 == keyChars)) = fs
  | [], _ => rfl
  | p :: ps, h => by
    simp only [List.any_cons, Bool.or_eq_false_iff] at h
    simp [List.filter_cons, h.1, filter_noKey_id ps h.2]

theorem delKeyFirst_eq_filter : ∀ fs, nodupKeys fs = true →
    delKeyFirst fs = fs.filter (fun p => !(p.1 == keyChars))
  | [], _ => rfl
  | p :: ps, h => by
    simp only [nodupKeys, Bool.and_eq_true, Bool.not_eq_true'] at h
    by_cases hp : p.1 = keyChars
    · have hbeq : (p.1 == keyChars) = true := by
        rw [beq_iff_eq]
        exact hp
      have hps : (ps.any (fun q => q.1 == keyChars)) = false := by
        rw [← hp]
        exact h.1
      rw [delKeyFirst, if_pos hp]
      simp [List.filter_cons, hbeq, filter_noKey_id ps hps]
    · have hbeq : (p.1 == keyChars) = false := by
        rw [beq_eq_false_iff_ne]
        exact hp
      rw [delKeyFirst, if_neg hp]
      simp [List.filter_cons, hbeq, delKeyFirst_eq_filter ps h.2]

theorem removeItem_obj {fs : List (List Char × Json)} (h : nodupKeys fs = true) :
    removeItem (Json.obj fs)
      = some (Json.obj (fs.filter (fun p => !(p.1 == keyChars)))) := by
  rw [removeItem]
  by_cases hany : (fs.any (fun p => p.1 == keyChars)) = true
  · rw [show pyIn (Json.obj fs) = some (fs.any (fun p => p.1 == keyChars)) from rfl, hany]
    show pyDel (Json.obj fs) = _
    rw [show pyDel (Json.obj fs) = some (Json.obj (delKeyFirst fs)) from rfl,
      delKeyFirst_eq_filter fs h]
  · have hf : (fs.any (fun p => p.1 == keyChars)) = false := Bool.eq_false_iff.mpr hany
    rw [show pyIn (Json.obj fs) = some (fs.any (fun p => p.1 == keyChars)) from rfl, hf]
    show some (Json.obj fs) = _
    rw [filter_noKey_id fs hf]

theorem removeListLoop_objs : ∀ xs : List Json, jwfList xs = true →
    (∀ x ∈ xs, isObjItem x = true) → removeListLoop xs = some (xs.map specStripRecord)
  | [], _, _ => rfl
  | x :: xs, hwf, hobj => by
    simp only [jwfList, Bool.and_eq_true] at hwf
    obtain ⟨fs, rfl⟩ : ∃ fs, x = Json.obj fs := by
      have hx := hobj x (List.mem_cons_self x xs)
      match x, hx with
      | Json.obj fs, _ => exact ⟨fs, rfl⟩
    have hnd : nodupKeys fs = true := by
      have h1 := hwf.1
      simp only [jwf, Bool.and_eq_true] at h1
      exact h1.1
    rw [removeListLoop, removeItem_obj hnd, removeListLoop_objs xs hwf.2
      (fun y hy => hobj y (List.mem_cons_of_mem _ hy))]
    rfl

theorem removeItem_wf : ∀ {j j2 : Json}, jwf j = true → removeItem j = some j2 →
    jwf j2 = true ∧ removeItem j2 = some j2 := by
  intro j j2 hw h
  match j with
  | Json.null => exact Option.noConfusion h
  | Json.bool b => exact Option.noConfusion h
  | Json.num i => exact Option.noConfusion h
  | Json.str s =>
    rw [removeItem] at h
    by_cases hs : hasSubstr keyChars s = true
    · rw [show pyIn (Json.str s) = some (hasSubstr keyChars s) from rfl, hs] at h
      exact Option.noConfusion h
    · have hsf : hasSubstr keyChars s = false := Bool.eq_false_iff.mpr hs
      rw [show pyIn (Json.str s) = some (hasSubstr keyChars s) from rfl, hsf] at h
      have h2 : some (Json.str s) = some j2 := h
      obtain rfl : Json.str s = j2 := by injection h2
      refine ⟨rfl, ?_⟩
      rw [removeItem, show pyIn (Json.str s) = some (hasSubstr keyChars s) from rfl, hsf]
  | Json.arr ys =>
    rw [removeItem] at h
    by_cases hs : (ys.any (fun x => jeq x (Json.str keyChars))) = true
    · rw [show pyIn (Json.arr ys) = some (ys.any (fun x => jeq x (Json.str keyChars)))
        from rfl, hs] at h
      exact Option.noConfusion h
    · have hsf : (ys.any (fun x => jeq x (Json.str keyChars))) = false :=
        Bool.eq_false_iff.mpr hs
      rw [show pyIn (Json.arr ys) = some (ys.any (fun x => jeq x (Json.str keyChars)))
        from rfl, hsf] at h
      have h2 : some (Json.arr ys) = some j2 := h
      obtain rfl : Json.arr ys = j2 := by injection h2
      refine ⟨hw, ?_⟩
      rw [removeItem, show pyIn (Json.arr ys) = some (ys.any (fun x => jeq x (Json.str keyChars)))
        from rfl, hsf]
  | Json.obj fs =>
    simp only [jwf, Bool.and_eq_true] at hw
    rw [removeItem] at h
    by_cases hany : (fs.any (fun p => p.1 == keyChars)) = true
    · rw [show pyIn (Json.obj fs) = some (fs.any (fun p => p.1 == keyChars)) from rfl,
        hany] at h
      have h2 : some (Json.obj (delKeyFirst fs)) = some j2 := h
      obtain rfl : Json.obj (delKeyFirst fs) = j2 := by injection h2
      constructor
      · simp only [jwf, Bool.and_eq_true]
        exact ⟨delKeyFirst_nodup fs hw.1, delKeyFirst_jwfObj fs hw.2⟩
      · rw [removeItem, show pyIn (Json.obj (delKeyFirst fs))
          = some ((delKeyFirst fs).any (fun p => p.1 == keyChars)) from rfl,
          delKeyFirst_noKey fs hw.1]
    · have hf : (fs.any (fun p => p.1 == keyChars)) = false := Bool.eq_false_iff.mpr hany
      rw [show pyIn (Json.obj fs) = some (fs.any (fun p => p.1 == keyChars)) from rfl,
        hf] at h
      have h2 : some (Json.obj fs) = some j2 := h
      obtain rfl : Json.obj fs = j2 := by injection h2
      constructor
      · simp only [jwf, Bool.and_eq_true]
        exact hw
      · rw [removeItem, show pyIn (Json.obj fs) = some (fs.any (fun p => p.1 == keyChars))
          from rfl, hf]

theorem removeListLoop_wf : ∀ (xs xs2 : List Json), jwfList xs = true →
    removeListLoop xs = some xs2 → jwfList xs2 = true ∧ removeListLoop xs2 = some xs2
  | [], xs2, _, h => by
    obtain rfl : ([] : List Json) = xs2 := by injection h
    exact ⟨rfl, rfl⟩
  | x :: xs, xs2, hwf, h => by
    simp only [jwfList, Bool.and_eq_true] at hwf
    rw [removeListLoop] at h
    match hri : removeItem x with
    | none =>
      rw [hri] at h
      exact Option.noConfusion h
    | some j2 =>
      rw [hri] at h
      match hrl : removeListLoop xs with
      | none =>
        rw [hrl] at h
        exact Option.noConfusion h
      | some l2 =>
        rw [hrl] at h
        have h2 : some (j2 :: l2) = some xs2 := h
        obtain rfl : j2 :: l2 = xs2 := by injection h2
        obtain ⟨hj2, hstab⟩ := removeItem_wf hwf.1 hri
        obtain ⟨hl2, hstab2⟩ := removeListLoop_wf xs l2 hwf.2 hrl
        refine ⟨by simp [jwfList, hj2, hl2], ?_⟩
        rw [removeListLoop, hstab, hstab2]
        rfl

theorem removePass_wf_stable : ∀ {d d2 : Json}, jwf d = true → removePass d = some d2 →
    jwf d2 = true ∧ removePass d2 = some d2 := by
  intro d d2 hw h
  match d with
  | Json.null => exact Option.noConfusion h
  | Json.bool b => exact Option.noConfusion h
  | Json.num i => exact Option.noConfusion h
  | Json.str s =>
    have h2 : some (Json.str s) = some d2 := h
    obtain rfl : Json.str s = d2 := by injection h2
    exact ⟨rfl, rfl⟩
  | Json.arr xs =>
    rw [removePass] at h
    match hrl : removeListLoop xs with
    | none =>
      rw [hrl] at h
      exact Option.noConfusion h
    | some l2 =>
      rw [hrl] at h
      have h2 : some (Json.arr l2) = some d2 := h
      obtain rfl : Json.arr l2 = d2 := by injection h2
      have hwl : jwfList xs = true := hw
      obtain ⟨hl2, hstab⟩ := removeListLoop_wf xs l2 hwl hrl
      refine ⟨hl2, ?_⟩
      rw [removePass, hstab]
      rfl
  | Json.obj fs =>
    rw [removePass] at h
    by_cases hany : (fs.any (fun p => hasSubstr keyChars p.1)) = true
    · rw [if_pos hany] at h
      exact Option.noConfusion h
    · rw [if_neg hany] at h
      have h2 : some (Json.obj fs) = some d2 := h
      obtain rfl : Json.obj fs = d2 := by injection h2
      refine ⟨hw, ?_⟩
      rw [removePass, if_neg hany]

theorem key_any_of_substr {fs : List (List Char × Json)}
    (h : (fs.any (fun p => hasSubstr keyChars p.1)) = false) :
    (fs.any (fun p => p.1 == keyChars)) = false := by
  rw [List.any_eq_false] at h ⊢
  intro p hp hbeq
  apply h p hp
  rw [beq_iff_eq] at hbeq
  rw [hbeq]
  exact hasSubstr_key_self

theorem removeItem_itemOk : ∀ {j j2 : Json}, jwf j = true → removeItem j = some j2 →
    (match j2 with
     | Json.obj fs => !(fs.any (fun p => p.1 == keyChars))
     | _ => true) = true := by
  intro j j2 hw h
  match j with
  | Json.null => exact Option.noConfusion h
  | Json.bool b => exact Option.noConfusion h
  | Json.num i => exact Option.noConfusion h
  | Json.str s =>
    rw [removeItem] at h
    by_cases hs : hasSubstr keyChars s = true
    · rw [show pyIn (Json.str s) = some (hasSubstr keyChars s) from rfl, hs] at h
      exact Option.noConfusion h
    · have hsf : hasSubstr keyChars s = false := Bool.eq_false_iff.mpr hs
      rw [show pyIn (Json.str s) = some (hasSubstr keyChars s) from rfl, hsf] at h
      have h2 : some (Json.str s) = some j2 := h
      obtain rfl : Json.str s = j2 := by injection h2
      rfl
  | Json.arr ys =>
    rw [removeItem] at h
    by_cases hs : (ys.any (fun x => jeq x (Json.str keyChars))) = true
    · rw [show pyIn (Json.arr ys) = some (ys.any (fun x => jeq x (Json.str keyChars)))
        from rfl, hs] at h
      exact Option.noConfusion h
    · have hsf : (ys.any (fun x => jeq x (Json.str keyChars))) = false :=
        Bool.eq_false_iff.mpr hs
      rw [show pyIn (Json.arr ys) = some (ys.any (fun x => jeq x (Json.str keyChars)))
        from rfl, hsf] at h
      have h2 : some (Json.arr ys) = some j2 := h
      obtain rfl : Json.arr ys = j2 := by injection h2
      rfl
  | Json.obj fs =>
    simp only [jwf, Bool.and_eq_true] at hw
    rw [removeItem] at h
    by_cases hany : (fs.any (fun p => p.1 == keyChars)) = true
    · rw [show pyIn (Json.obj fs) = some (fs.any (fun p => p.1 == keyChars)) from rfl,
        hany] at h
      have h2 : some (Json.obj (delKeyFirst fs)) = some j2 := h
      obtain rfl : Json.obj (delKeyFirst fs) = j2 := by injection h2
      simp [delKeyFirst_noKey fs hw.1]
    · have hf : (fs.any (fun p => p.1 == keyChars)) = false := Bool.eq_false_iff.mpr hany
      rw [show pyIn (Json.obj fs) = some (fs.any (fun p => p.1 == keyChars)) from rfl,
        hf] at h
      have h2 : some (Json.obj fs) = some j2 := h
      obtain rfl : Json.obj fs = j2 := by injection h2
      simp [hf]

theorem removeListLoop_allOk : ∀ (xs xs2 : List Json), jwfList xs = true →
    removeListLoop xs = some xs2 →
    (xs2.all (fun x =>
      match x with
      | Json.obj fs => !(fs.any (fun p => p.1 == keyChars))
      | _ => true)) = true
  | [], xs2, _, h => by
    obtain rfl : ([] : List Json) = xs2 := by injection h
    rfl
  | x :: xs, xs2, hwf, h => by
    simp only [jwfList, Bool.and_eq_true] at hwf
    rw [removeListLoop] at h
    match hri : removeItem x with
    | none =>
      rw [hri] at h
      exact Option.noConfusion h
    | some j2 =>
      rw [hri] at h
      match hrl : removeListLoop xs with
      | none =>
        rw [hrl] at h
        exact Option.noConfusion h
      | some l2 =>
        rw [hrl] at h
        have h2 : some (j2 :: l2) = some xs2 := h
        obtain rfl : j2 :: l2 = xs2 := by injection h2
        simp only [List.all_cons, Bool.and_eq_true]
        exact ⟨removeItem_itemOk hwf.1 hri, removeListLoop_allOk xs l2 hwf.2 hrl⟩

/-- On success the removal pass leaves no top-level record with the target
field. -/
theorem removePass_noTopKey : ∀ {d d2 : Json}, jwf d = true → removePass d = some d2 →
    noTopKey d2 = true := by
  intro d d2 hw h
  match d with
  | Json.null => exact Option.noConfusion h
  | Json.bool b => exact Option.noConfusion h
  | Json.num i => exact Option.noConfusion h
  | Json.str s =>
    have h2 : some (Json.str s) = some d2 := h
    obtain rfl : Json.str s = d2 := by injection h2
    rfl
  | Json.arr xs =>
    rw [removePass] at h
    match hrl : removeListLoop xs with
    | none =>
      rw [hrl] at h
      exact Option.noConfusion h
    | some l2 =>
      rw [hrl] at h
      have h2 : some (Json.arr l2) = some d2 := h
      obtain rfl : Json.arr l2 = d2 := by injection h2
      have hwl : jwfList xs = true := hw
      exact removeListLoop_allOk xs l2 hwl hrl
  | Json.obj fs =>
    rw [removePass] at h
    by_cases hany : (fs.any (fun p => hasSubstr keyChars p.1)) = true
    · rw [if_pos hany] at h
      exact Option.noConfusion h
    · rw [if_neg hany] at h
      have h2 : some (Json.obj fs) = some d2 := h
      obtain rfl : Json.obj fs = d2 := by injection h2
      have hf := key_any_of_substr (Bool.eq_false_iff.mpr hany)
      simp [noTopKey, hf]

/-! ### Success-path inversion of the two pipelines -/

theorem clean_basic_success : ∀ {t o : List Char},
    clean_json_file_basic t = some (true, o) →
    ∃ data d2 : Json, jsonLoads (remove_expert_summary_fields t) = some data ∧
      removePass data = some d2 ∧ o = jsonDumps d2 := by
  intro t o h
  match hj : jsonLoads (remove_expert_summary_fields t) with
  | none =>
    simp [clean_json_file_basic, hj] at h
  | some data =>
    simp only [clean_json_file_basic, hj] at h
    match hr : removePass data with
    | none =>
      rw [hr] at h
      have h2 : (none : Option (Bool × List Char)) = some (true, o) := h
      exact Option.noConfusion h2
    | some d2 =>
      rw [hr] at h
      have h2 : some (true, jsonDumps d2) = some (true, o) := h
      have ho : jsonDumps d2 = o := congrArg Prod.snd (Option.some.inj h2)
      exact ⟨data, d2, rfl, hr, ho.symm⟩

theorem clean_adv_success : ∀ {t o : List Char} {n : Nat},
    clean_json_file_advanced t = some (true, n, o) →
    ∃ data d2 : Json, jsonLoads (remove_expert_summary_regex t) = some data ∧
      removePass data = some d2 ∧ n = jsonLen d2 ∧ o = jsonDumps d2 := by
  intro t o n h
  match hj : jsonLoads (remove_expert_summary_regex t) with
  | none =>
    simp [clean_json_file_advanced, hj] at h
  | some data =>
    simp only [clean_json_file_advanced, hj] at h
    match hr : removePass data with
    | none =>
      rw [hr] at h
      have h2 : (none : Option (Bool × Nat × List Char)) = some (true, n, o) := h
      exact Option.noConfusion h2
    | some d2 =>
      rw [hr] at h
      have h2 : some (true, jsonLen d2, jsonDumps d2) = some (true, n, o) := h
      have hpair := congrArg Prod.snd (Option.some.inj h2)
      exact ⟨data, d2, rfl, hr, (congrArg Prod.fst hpair).symm,
        (congrArg Prod.snd hpair).symm⟩

/-! ### The removal loop is the identity on key-free records -/

theorem removeListLoop_noKey_id : ∀ xs : List Json,
    (∀ x ∈ xs, isObjNoKey x = true) → removeListLoop xs = some xs
  | [], _ => rfl
  | x :: xs, h => by
    obtain ⟨fs, rfl, hf⟩ :
        ∃ fs, x = Json.obj fs ∧ (fs.any (fun p => p.1 == keyChars)) = false := by
      have hx := h x (List.mem_cons_self x xs)
      match x, hx with
      | Json.obj fs, hx =>
        refine ⟨fs, rfl, ?_⟩
        revert hx
        rw [show isObjNoKey (Json.obj fs) = !(fs.any (fun p => p.1 == keyChars)) from rfl]
        cases fs.any (fun p => p.1 == keyChars)
        · intro _
          rfl
        · intro hx
          exact absurd hx (by decide)
    have hri : removeItem (Json.obj fs) = some (Json.obj fs) := by
      simp [removeItem, pyIn, hf]
    rw [removeListLoop, hri,
      removeListLoop_noKey_id xs (fun y hy => h y (List.mem_cons_of_mem _ hy))]
    rfl

/-! ## The claims -/

/-- Claim C2: the spec's concrete scenario.  Corrected: on that exact input
both scripts' Stage 1 drops the trigger line and the continuation line,
leaving the empty text, which fails to parse; `clean_json_file` returns
`success = false` with the empty Stage-1 text instead of the claimed
2-record output. -/
theorem c2_concrete_scenario :
    remove_expert_summary_fields c2In = [] ∧
    remove_expert_summary_regex c2In = [] ∧
    clean_json_file_basic c2In = some (false, []) ∧
    clean_json_file_advanced c2In = some (false, 0, []) :=
  ⟨rfl, rfl, rfl, rfl⟩

/-- Claim C2, counterexample to the literal claim: the success flag on the
spec's concrete input is `false` in both scripts, not `true`. -/
theorem c2_concrete_counterexample :
    (clean_json_file_basic c2In).map Prod.fst = some false ∧
    (clean_json_file_advanced c2In).map Prod.fst = some false :=
  ⟨rfl, rfl⟩

/-- Claim C3: when Stage 2's parse of the Stage-1 output fails, each script
returns `success = false` (the advanced one with entry count 0) and writes
exactly the Stage-1 text.  Corrected: this is not the only failure mode —
see the counterexample, where the removal loop raises `TypeError`. -/
theorem c3_parse_failure_path (t : List Char)
    (hb : jsonLoads (remove_expert_summary_fields t) = none)
    (ha : jsonLoads (remove_expert_summary_regex t) = none) :
    clean_json_file_basic t = some (false, remove_expert_summary_fields t) ∧
    clean_json_file_advanced t = some (false, 0, remove_expert_summary_regex t) := by
  constructor
  · simp only [clean_json_file_basic, hb]
  · simp only [clean_json_file_advanced, ha]

/-- Claim C3, witness: the text `[` passes Stage 1 unchanged and fails to
parse; both scripts report failure and return it. -/
theorem c3_parse_failure_path_witness :
    clean_json_file_basic brokenIn
      = some (false, remove_expert_summary_fields brokenIn) ∧
    clean_json_file_advanced brokenIn
      = some (false, 0, remove_expert_summary_regex brokenIn) :=
  c3_parse_failure_path brokenIn rfl rfl

/-- Claim C3, counterexample to the clause that structured parse failure is
the only failure mode: on the input `[1]` both scripts parse successfully
and then crash with an uncaught `TypeError` from the membership test on the
integer item (modelled as `none`). -/
theorem c3_typeerror_counterexample :
    clean_json_file_basic c3In = none ∧ clean_json_file_advanced c3In = none :=
  ⟨rfl, rfl⟩

/-- Claim C10: whole-line granularity — each Stage-1 filter's output is the
join of a subsequence of the input's lines, every kept line verbatim;
lines are only dropped whole, never edited.  Confirmed. -/
theorem c10_whole_line_granularity (t : List Char) :
    ∃ ls1 ls2 : List (List Char),
      List.Sublist ls1 (splitLines t) ∧ remove_expert_summary_fields t = joinLines ls1 ∧
      List.Sublist ls2 (splitLines t) ∧ remove_expert_summary_regex t = joinLines ls2 :=
  ⟨basicLoop false false (splitLines t), advLoop false (splitLines t),
    basicLoop_sublist false false (splitLines t), rfl,
    advLoop_sublist false (splitLines t), rfl⟩

/-- Claim C7: escaped-quote robustness of the Stage-1 closing-quote
detectors.  Inserting a backslash-escape pair (a backslash followed by any
character, a quote included) at any unescaped position changes neither the
basic script's unescaped-quote count nor the advanced script's
unescaped-quote search, so an escaped quote never ends the span early.
Confirmed. -/
theorem c7_escape_pair_skip (a b : List Char) (c : Char)
    (h : escRun false a = false) :
    quoteCount false (a ++ '\\' :: c :: b) = quoteCount false (a ++ b) ∧
    hasUnescQuote false (a ++ '\\' :: c :: b)
      = (hasUnescQuote false a || hasUnescQuote false b) := by
  have hq : quoteCount false ('\\' :: c :: b) = quoteCount false b := by
    simp [quoteCount]
  have hu : hasUnescQuote false ('\\' :: c :: b) = hasUnescQuote false b := by
    simp [hasUnescQuote]
  constructor
  · rw [quoteCount_append, h, hq, quoteCount_append, h]
  · rw [hasUnescQuote_append, h, hu]

/-- Claim C7, witness: a lone escaped quote counts zero unescaped quotes
and is not found as an unescaped quote, while the following bare quote
still is. -/
theorem c7_escape_pair_skip_witness :
    quoteCount false ([] ++ '\\' :: '"' :: ['"']) = quoteCount false ([] ++ ['"']) ∧
    hasUnescQuote false ([] ++ '\\' :: '"' :: ['"'])
      = (hasUnescQuote false [] || hasUnescQuote false ['"']) :=
  c7_escape_pair_skip [] ['"'] '"' rfl

/-- Claim C8: trigger recognition.  Corrected: a single-line text is
suppressed by both Stage-1 filters exactly when it contains the quoted key
token and contains a colon anywhere on the line — the colon need not
directly follow the token. -/
theorem c8_single_line_trigger (l : List Char) (h : l.contains '\n' = false) :
    remove_expert_summary_fields l
      = (if hasSubstr tokenQ l && l.contains ':' then [] else l) ∧
    remove_expert_summary_regex l
      = (if hasSubstr tokenQ l && l.contains ':' then [] else l) := by
  have hs : splitLines l = [l] := splitLines_single h
  constructor
  · rw [remove_expert_summary_fields, hs]
    by_cases ht : triggerLine l = true
    · rw [if_pos (show (hasSubstr tokenQ l && l.contains ':') = true from ht)]
      simp [basicLoop, ht, joinLines]
    · rw [if_neg (show ¬(hasSubstr tokenQ l && l.contains ':') = true from ht)]
      simp [basicLoop, ht, joinLines]
  · rw [remove_expert_summary_regex, hs]
    by_cases ht : triggerLine l = true
    · rw [if_pos (show (hasSubstr tokenQ l && l.contains ':') = true from ht)]
      simp [advLoop, ht, joinLines]
    · rw [if_neg (show ¬(hasSubstr tokenQ l && l.contains ':') = true from ht)]
      simp [advLoop, ht, joinLines]

/-- Claim C8, witness: the characterization applied to the line
`: "expert_summary"`. -/
theorem c8_single_line_trigger_witness :
    remove_expert_summary_fields c8In
      = (if hasSubstr tokenQ c8In && c8In.contains ':' then [] else c8In) ∧
    remove_expert_summary_regex c8In
      = (if hasSubstr tokenQ c8In && c8In.contains ':' then [] else c8In) :=
  c8_single_line_trigger c8In (by decide)

/-- Claim C8, counterexample to "a line containing the token without a
colon directly following it does not begin suppression": the line
`: "expert_summary"` has no colon directly after the token, yet both
filters suppress it. -/
theorem c8_colon_position_counterexample :
    hasSubstr (tokenQ ++ [':']) c8In = false ∧
    remove_expert_summary_fields c8In = [] ∧
    remove_expert_summary_regex c8In = [] :=
  ⟨rfl, rfl, rfl⟩

/-- Claim C9: equivalence of the two Stage-1 filters.  Corrected: they
agree (both are the identity) on every text none of whose lines passes the
trigger test, but they are not equivalent in general — see the
counterexample, where they keep different line sets. -/
theorem c9_variants_agree_trigger_free (t : List Char)
    (h : ∀ l ∈ splitLines t, triggerLine l = false) :
    remove_expert_summary_fields t = remove_expert_summary_regex t := by
  obtain ⟨h1, h2⟩ := stage1_id_of_no_trigger h
  rw [h1, h2]

/-- Claim C9, witness: the two filters agree on the trigger-free text
`[1, 2]`. -/
theorem c9_variants_agree_trigger_free_witness :
    remove_expert_summary_fields c9wIn = remove_expert_summary_regex c9wIn :=
  c9_variants_agree_trigger_free c9wIn (by decide)

/-- Claim C9, counterexample: on a record whose `expert_summary` value
closes on its own line, the basic filter also drops the following `name`
line while the advanced filter keeps it, so the two cleaned texts
differ. -/
theorem c9_variants_counterexample :
    remove_expert_summary_fields c9In = c9BasicOut ∧
    remove_expert_summary_regex c9In = c9AdvOut ∧
    c9BasicOut ≠ c9AdvOut :=
  ⟨rfl, rfl, by decide⟩

/-- Claim C1: exact field stripping.  Corrected: the guarantee holds
relative to each script's Stage-1 output, not the original input — when
that output parses as an array of records, `clean_json_file` succeeds and
returns exactly those records with the target field removed, other fields,
values and order preserved.  Relative to the original input the claim is
false: the basic Stage 1 can drop whole neighbouring lines (see the
counterexample). -/
theorem c1_exact_strip_of_stage1 (t : List Char) {xs ys : List Json}
    (hpb : jsonLoads (remove_expert_summary_fields t) = some (Json.arr xs))
    (hob : ∀ x ∈ xs, isObjItem x = true)
    (hpa : jsonLoads (remove_expert_summary_regex t) = some (Json.arr ys))
    (hoa : ∀ y ∈ ys, isObjItem y = true) :
    clean_json_file_basic t
      = some (true, jsonDumps (Json.arr (xs.map specStripRecord))) ∧
    clean_json_file_advanced t
      = some (true, ys.length, jsonDumps (Json.arr (ys.map specStripRecord))) := by
  have hwb : jwfList xs = true := jsonLoads_wf hpb
  have hwa : jwfList ys = true := jsonLoads_wf hpa
  have hrb : removePass (Json.arr xs) = some (Json.arr (xs.map specStripRecord)) := by
    show (removeListLoop xs).map Json.arr = _
    rw [removeListLoop_objs xs hwb hob]
    rfl
  have hra : removePass (Json.arr ys) = some (Json.arr (ys.map specStripRecord)) := by
    show (removeListLoop ys).map Json.arr = _
    rw [removeListLoop_objs ys hwa hoa]
    rfl
  constructor
  · simp only [clean_json_file_basic, hpb, hrb]
  · simp only [clean_json_file_advanced, hpa, hra, jsonLen, List.length_map]

/-- Claim C1, witness: on `c1cIn` the basic Stage-1 residue parses as
`c1cWrong` and the advanced one as `c1cKeep`; both pipelines succeed and
return exactly those records stripped. -/
theorem c1_exact_strip_of_stage1_witness :
    clean_json_file_basic c1cIn
      = some (true, jsonDumps (Json.arr (c1cWrong.map specStripRecord))) ∧
    clean_json_file_advanced c1cIn
      = some (true, c1cKeep.length, jsonDumps (Json.arr (c1cKeep.map specStripRecord))) :=
  c1_exact_strip_of_stage1 c1cIn
    (by rfl)
    (by
      intro x hx
      simp only [c1cWrong, List.mem_cons, List.not_mem_nil, or_false] at hx
      rcases hx with rfl | rfl <;> rfl)
    (by rfl)
    (by
      intro y hy
      simp only [c1cKeep, List.mem_cons, List.not_mem_nil, or_false] at hy
      rcases hy with rfl | rfl <;> rfl)

/-- Claim C1, counterexample to the claim as stated over the original
input: `c1cIn` denotes the records `c1cRecs`, the basic script succeeds,
but its output is the records `c1cWrong`, which are not `c1cRecs` with
only the target field removed — the first record's `name` and value are
gone. -/
theorem c1_overstrip_counterexample :
    jsonLoads c1cIn = some (Json.arr c1cRecs) ∧
    clean_json_file_basic c1cIn = some (true, jsonDumps (Json.arr c1cWrong)) ∧
    jeq (Json.arr c1cWrong) (Json.arr (c1cRecs.map specStripRecord)) = false :=
  ⟨rfl, rfl, by decide⟩

/-- Claim C4: idempotence.  Corrected: a second application returns the
first one's output only when no line of that output passes the Stage-1
trigger test; the counterexample shows a successful first run whose output
re-triggers Stage 1 and makes the second run fail. -/
theorem c4_idempotent_when_output_trigger_free (t u : List Char)
    {o p : List Char} {n : Nat}
    (hb : clean_json_file_basic t = some (true, o))
    (hnt : ∀ l ∈ splitLines o, triggerLine l = false)
    (ha : clean_json_file_advanced u = some (true, n, p))
    (hnp : ∀ l ∈ splitLines p, triggerLine l = false) :
    clean_json_file_basic o = some (true, o) ∧
    clean_json_file_advanced p = some (true, n, p) := by
  constructor
  · obtain ⟨data, d2, hj, hr, rfl⟩ := clean_basic_success hb
    have hwf : jwf data = true := jsonLoads_wf hj
    obtain ⟨hwf2, hstab⟩ := removePass_wf_stable hwf hr
    have h1 : remove_expert_summary_fields (jsonDumps d2) = jsonDumps d2 :=
      (stage1_id_of_no_trigger hnt).1
    have hl : jsonLoads (jsonDumps d2) = some d2 := jsonLoads_dumps hwf2
    simp only [clean_json_file_basic, h1, hl, hstab]
  · obtain ⟨data2, e2, hj2, hr2, hn, rfl⟩ := clean_adv_success ha
    have hwf : jwf data2 = true := jsonLoads_wf hj2
    obtain ⟨hwf3, hstab2⟩ := removePass_wf_stable hwf hr2
    have h2 : remove_expert_summary_regex (jsonDumps e2) = jsonDumps e2 :=
      (stage1_id_of_no_trigger hnp).2
    have hl2 : jsonLoads (jsonDumps e2) = some e2 := jsonLoads_dumps hwf3
    simp only [clean_json_file_advanced, h2, hl2, hstab2]
    rw [hn]

/-- Claim C4, witness: `[]` is a fixed point — both pipelines succeed on it
and return it, and a second application returns it again. -/
theorem c4_idempotent_when_output_trigger_free_witness :
    clean_json_file_basic c4wText = some (true, c4wText) ∧
    clean_json_file_advanced c4wText = some (true, 0, c4wText) :=
  c4_idempotent_when_output_trigger_free c4wText c4wText rfl (by decide) rfl (by decide)

/-- Claim C4, counterexample: on `c4In` both pipelines succeed with output
`c4Out`, whose third line holds the quoted token and a colon; the second
application suppresses three lines of it and fails, returning the truncated
`c4Bad` instead of `c4Out`. -/
theorem c4_idempotence_counterexample :
    clean_json_file_basic c4In = some (true, c4Out) ∧
    clean_json_file_basic c4Out = some (false, c4Bad) ∧
    clean_json_file_advanced c4In = some (true, 1, c4Out) ∧
    clean_json_file_advanced c4Out = some (false, 0, c4Bad) ∧
    c4Out ≠ c4Bad :=
  ⟨rfl, rfl, rfl, rfl, by decide⟩

/-- Claim C5: round trip on field-free input.  Corrected: the round trip
holds under the added premise that no line of the input passes the Stage-1
trigger test; then an input parsing as an array of records free of the
target field is transformed successfully into text that parses back to the
identical collection.  Without that premise the claim is false — see the
counterexample. -/
theorem c5_roundtrip_trigger_free (t : List Char) {xs : List Json}
    (hnt : ∀ l ∈ splitLines t, triggerLine l = false)
    (hp : jsonLoads t = some (Json.arr xs))
    (hnk : ∀ x ∈ xs, isObjNoKey x = true) :
    clean_json_file_basic t = some (true, jsonDumps (Json.arr xs)) ∧
    clean_json_file_advanced t = some (true, xs.length, jsonDumps (Json.arr xs)) ∧
    jsonLoads (jsonDumps (Json.arr xs)) = some (Json.arr xs) := by
  obtain ⟨h1, h2⟩ := stage1_id_of_no_trigger hnt
  have hwf : jwf (Json.arr xs) = true := jsonLoads_wf hp
  have hrp : removePass (Json.arr xs) = some (Json.arr xs) := by
    show (removeListLoop xs).map Json.arr = _
    rw [removeListLoop_noKey_id xs hnk]
    rfl
  refine ⟨?_, ?_, jsonLoads_dumps hwf⟩
  · simp only [clean_json_file_basic, h1, hp, hrp]
  · simp only [clean_json_file_advanced, h2, hp, hrp, jsonLen]

/-- Claim C5, witness: the round trip on the field-free, trigger-free input
`[{"a": 1}]`. -/
theorem c5_roundtrip_trigger_free_witness :
    clean_json_file_basic c5wIn = some (true, jsonDumps (Json.arr c5wItems)) ∧
    clean_json_file_advanced c5wIn
      = some (true, c5wItems.length, jsonDumps (Json.arr c5wItems)) ∧
    jsonLoads (jsonDumps (Json.arr c5wItems)) = some (Json.arr c5wItems) :=
  c5_roundtrip_trigger_free c5wIn (by decide) rfl
    (by
      intro x hx
      simp only [c5wItems, List.mem_cons, List.not_mem_nil, or_false] at hx
      subst hx
      rfl)

/-- Claim C5, counterexample: `c5In` parses as a collection whose only
record is free of the target field at top level (the field sits one level
deeper), yet its single line triggers Stage 1, everything is suppressed and
both pipelines fail instead of round-tripping. -/
theorem c5_roundtrip_counterexample :
    jsonLoads c5In = some c5Data ∧
    noTopKey c5Data = true ∧
    clean_json_file_basic c5In = some (false, []) ∧
    clean_json_file_advanced c5In = some (false, 0, []) :=
  ⟨rfl, rfl, rfl, rfl⟩

/-- Claim C6: the success post-condition.  Corrected: on success every
top-level record of the value the output parses to is free of the target
key, but the output text can still contain the quoted key token (nested
keys, string values); the scripts only warn in that case.  The
counterexample exhibits a successful run whose output text contains the
token. -/
theorem c6_success_noTopKey (t u : List Char) {o p : List Char} {n : Nat}
    {d e : Json}
    (hb : clean_json_file_basic t = some (true, o))
    (hdo : jsonLoads o = some d)
    (ha : clean_json_file_advanced u = some (true, n, p))
    (hep : jsonLoads p = some e) :
    noTopKey d = true ∧ noTopKey e = true := by
  constructor
  · obtain ⟨data, d2, hj, hr, rfl⟩ := clean_basic_success hb
    have hwf : jwf data = true := jsonLoads_wf hj
    have hl : jsonLoads (jsonDumps d2) = some d2 :=
      jsonLoads_dumps (removePass_wf_stable hwf hr).1
    have hde : d = d2 := Option.some.inj (hdo.symm.trans hl)
    rw [hde]
    exact removePass_noTopKey hwf hr
  · obtain ⟨data2, e2, hj2, hr2, -, rfl⟩ := clean_adv_success ha
    have hwf : jwf data2 = true := jsonLoads_wf hj2
    have hl2 : jsonLoads (jsonDumps e2) = some e2 :=
      jsonLoads_dumps (removePass_wf_stable hwf hr2).1
    have hee : e = e2 := Option.some.inj (hep.symm.trans hl2)
    rw [hee]
    exact removePass_noTopKey hwf hr2

/-- Claim C6, witness: the post-condition instantiated at the input `[]`,
whose output parses to the empty collection. -/
theorem c6_success_noTopKey_witness :
    noTopKey (Json.arr []) = true ∧ noTopKey (Json.arr []) = true :=
  c6_success_noTopKey c4wText c4wText rfl rfl rfl rfl

/-- Claim C6, counterexample to "zero occurrences of the key token in the
output text": on `c6In` both pipelines succeed and the output text `c6Out`
contains the quoted token (as a nested object's key). -/
theorem c6_postcondition_counterexample :
    clean_json_file_basic c6In = some (true, c6Out) ∧
    clean_json_file_advanced c6In = some (true, 1, c6Out) ∧
    hasSubstr tokenQ c6Out = true :=
  ⟨rfl, rfl, rfl⟩
